import Mathlib

/-!
# ace3-functions-reader: a shallow embedding of `ace3_reader.js`

The JavaScript module reads the `functions` folder of every addon folder and
returns, per addon prefix, the list of named texts (whole files or header
comments).  This development embeds the module's functions as Lean
definitions and proves properties of them.

Conventions of the embedding.

* A JavaScript string is a `List Char` (`Str`).  The regular expressions and
  string methods the module uses only look at characters of the basic
  multilingual plane or cut a string at a position found by a search, so the
  code-point view and the UTF-16 view agree on them.
* A promise is its settlement state (`Promise`): pending, resolved or
  rejected; `resolve` and `reject` act on a pending promise only, so the
  first settlement wins.
* The line reader, the directory listing, the file read and the locale
  comparison are collaborators of the module: their results are inputs.
-/

namespace Ace3Reader

/-- A JavaScript string. -/
abbrev Str := List Char

/-! ## Promises -/

/-- Settlement state of a promise. -/
inductive Promise (ε α : Type) where
  | pending : Promise ε α
  | resolved (value : α) : Promise ε α
  | rejected (error : ε) : Promise ε α
  deriving DecidableEq, Repr

/-- The call `resolve(value)`: settles a pending promise, does nothing otherwise. -/
def Promise.resolve {ε α : Type} (p : Promise ε α) (value : α) : Promise ε α :=
  match p with
  | .pending => .resolved value
  | q => q

/-- The call `reject(error)`: settles a pending promise, does nothing otherwise. -/
def Promise.reject {ε α : Type} (p : Promise ε α) (error : ε) : Promise ε α :=
  match p with
  | .pending => .rejected error
  | q => q

/-- The errors the module creates or passes on.  The three `new Error(...)`
values are told apart by their message; an error of `fs` or of the line
reader is known by its `code`. -/
inductive Err where
  /-- The message is `Found no addon folders`. -/
  | noAddonFolders : Err
  /-- The message is the file followed by ` - Empy file`. -/
  | emptyFile (file : Str) : Err
  /-- The message is the file followed by ` - missing documentation?`. -/
  | missingDocumentation (file : Str) : Err
  /-- An error object of the platform, with its `code` (`ENOENT`, `EACCES`, ...). -/
  | system (code : Str) : Err
  deriving DecidableEq, Repr

/-! ## Characters and the regular expressions of the scanner -/

/-- The class `\s` of a JavaScript regular expression (and the characters
`String.prototype.trim` removes): white space and line terminators. -/
def isWhiteSpace (c : Char) : Bool :=
  let n := c.toNat
  n == 0x09 || n == 0x0A || n == 0x0B || n == 0x0C || n == 0x0D || n == 0x20
    || n == 0xA0 || n == 0x1680 || (0x2000 ≤ n && n ≤ 0x200A) || n == 0x2028
    || n == 0x2029 || n == 0x202F || n == 0x205F || n == 0x3000 || n == 0xFEFF

/-- The line terminators: the characters `.` does not match. -/
def isLineTerminator (c : Char) : Bool :=
  let n := c.toNat
  n == 0x0A || n == 0x0D || n == 0x2028 || n == 0x2029

/-- The class `[*\s]`. -/
def isStarOrSpace (c : Char) : Bool :=
  c == '*' || isWhiteSpace c

/-- The test `/^\s*\/\*/.test(line)`: white space, then the two characters
that open a comment. -/
def opensComment (line : Str) : Bool :=
  match line.dropWhile isWhiteSpace with
  | '/' :: '*' :: _ => true
  | _ => false

/-- The test `/^\s*\*\/\s*$/.test(line)`: white space, the two characters that
close a comment, white space up to the end of the string. -/
def closesComment (line : Str) : Bool :=
  match line.dropWhile isWhiteSpace with
  | '*' :: '/' :: rest => rest.all isWhiteSpace
  | _ => false

/-- Group 1 of `line.match(/^[*\s]*(.*)/)`: the match never fails; the group
starts after the leading run of stars and white space and runs up to the first
line terminator. -/
def matchGroup1 (line : Str) : Str :=
  (line.dropWhile isStarOrSpace).takeWhile (fun c => !isLineTerminator c)

/-- The method `String.prototype.trim`. -/
def trim (s : Str) : Str :=
  ((s.dropWhile isWhiteSpace).reverse.dropWhile isWhiteSpace).reverse

/-- The call `parsed.join('\r\n')`. -/
def joinCRLF (parsed : List Str) : Str :=
  List.intercalate ['\r', '\n'] parsed

/-- Truth value of an array in a condition: an object is always truthy,
whatever its length. -/
def arrayIsTruthy (_parsed : List Str) : Bool := true

/-! ## Paths -/

/-- The separator `path.sep` (POSIX). -/
def pathSep : Char := '/'

/-- The call `str.split(path.sep)`: the segments between separators. -/
def splitOnSep : Str → List Str
  | [] => [[]]
  | c :: rest =>
    if c = pathSep then [] :: splitOnSep rest
    else
      match splitOnSep rest with
      | [] => [[c]]
      | seg :: segs => (c :: seg) :: segs

/-- The helper `getLast`; `undefined` for an empty array is `none`. -/
def getLast (arr : List Str) : Option Str :=
  arr.getLast?

/-- The function `path.basename` on a path without a trailing separator: the
part after the last separator. -/
def basename (p : Str) : Str :=
  (getLast (splitOnSep p)).getD []

/-- The call `path.join(dir, name)` (and `path.resolve(dir, name)`) for a
normalised absolute `dir` and an entry name. -/
def pathJoin (dir name : Str) : Str :=
  dir ++ pathSep :: name

/-! ## The header comment scanner -/

/-- The variables of one call of `getFunctionHeaderComments`, the reader's
closed flag and the promise the call returned. -/
structure Scanner where
  parsed : List Str
  linesRead : Nat
  startParse : Bool
  closed : Bool
  promise : Promise Err Str
  deriving DecidableEq, Repr

/-- State at the start of a call. -/
def Scanner.init : Scanner :=
  { parsed := [], linesRead := 0, startParse := false, closed := false, promise := .pending }

/-- The events of the line reader. -/
inductive ReaderEvent where
  | line (text : Str) : ReaderEvent
  | error (code : Str) : ReaderEvent
  | eof : ReaderEvent
  deriving DecidableEq, Repr

/-- The handler of `line`. -/
def onLine (filePath : Str) (s : Scanner) (line : Str) : Scanner :=
  let s := { s with linesRead := s.linesRead + 1 }
  let s :=
    if !s.startParse && decide (3 ≤ s.linesRead) then
      { s with promise := s.promise.reject (.missingDocumentation filePath) }
    else s
  if !s.startParse && opensComment line then
    { s with startParse := true }
  else
    let s :=
      if closesComment line then
        { s with closed := true, promise := s.promise.resolve (joinCRLF s.parsed) }
      else s
    let group1 := matchGroup1 line
    if group1.isEmpty then s
    else
      let str := trim group1
      if str.isEmpty then s else { s with parsed := s.parsed ++ [str] }

/-- The handler of `end`. -/
def onEnd (filePath : Str) (s : Scanner) : Scanner :=
  if s.linesRead < 2 then
    { s with promise := s.promise.reject (.emptyFile (basename filePath)) }
  else if !arrayIsTruthy s.parsed then
    { s with promise := s.promise.reject (.missingDocumentation (basename filePath)) }
  else s

/-- The handler of `error`. -/
def onError (s : Scanner) (code : Str) : Scanner :=
  { s with closed := true, promise := s.promise.reject (.system code) }

/-- One event of the reader; a closed reader delivers no further line. -/
def deliver (filePath : Str) (s : Scanner) : ReaderEvent → Scanner
  | .line text => if s.closed then s else onLine filePath s text
  | .error code => onError s code
  | .eof => onEnd filePath s

/-- The scanner on a stream of reader events. -/
def scanEvents (filePath : Str) (events : List ReaderEvent) : Scanner :=
  events.foldl (deliver filePath) Scanner.init

/-- The function `getFunctionHeaderComments` on a file the reader reads to its
end: `lines` are the lines it delivers (it skips the empty ones), followed by
`end`.  The value is the state the returned promise is left in. -/
def getFunctionHeaderComments (filePath : Str) (lines : List Str) : Promise Err Str :=
  (scanEvents filePath (lines.map ReaderEvent.line ++ [ReaderEvent.eof])).promise

/-- The function `getFunctionHeaderComments` on any stream of reader events. -/
def getFunctionHeaderCommentsOn (filePath : Str) (events : List ReaderEvent) : Promise Err Str :=
  (scanEvents filePath events).promise

/-! ## Comment mode and full-content mode of one file -/

/-- The value both modes produce for a file. -/
structure FileText where
  filePath : Str
  text : Str
  deriving DecidableEq, Repr

/-- The function `getComments` around a scanner promise: the scanner's text
when it resolves, the empty text (and a warning on the console) when it
rejects; while the scanner's promise is pending so is this one. -/
def getCommentsOn (filePath : Str) (events : List ReaderEvent) : Promise Err FileText :=
  match getFunctionHeaderCommentsOn filePath events with
  | .resolved text => .resolved { filePath := filePath, text := text }
  | .rejected _ => .resolved { filePath := filePath, text := [] }
  | .pending => .pending

/-- The function `getComments` on a file the reader reads to its end. -/
def getComments (filePath : Str) (lines : List Str) : Promise Err FileText :=
  getCommentsOn filePath (lines.map ReaderEvent.line ++ [ReaderEvent.eof])

/-- The file system as the module sees it: `fs.readdir`, `fs.readFile` with
`utf8`, and the events the line reader emits for a file.  A failure of the
platform is given by the `code` of its error object. -/
structure FileSystem where
  readdir : Str → Except Str (List Str)
  readFile : Str → Except Str Str
  lineEvents : Str → List ReaderEvent

/-- The function `readFile`. -/
def readFile (fsys : FileSystem) (filePath : Str) : Promise Err FileText :=
  match fsys.readFile filePath with
  | .error code => .rejected (Err.system code)
  | .ok text => .resolved { filePath := filePath, text := text }

/-! ## Promise combinators -/

/-- The method `then` with a function that returns a plain value. -/
def Promise.map {ε α β : Type} (f : α → β) : Promise ε α → Promise ε β
  | .pending => .pending
  | .resolved a => .resolved (f a)
  | .rejected e => .rejected e

/-- The error of the first rejected promise of a list. -/
def firstRejection {ε α : Type} : List (Promise ε α) → Option ε
  | [] => none
  | .rejected e :: _ => some e
  | _ :: rest => firstRejection rest

/-- The values of the promises of a list when all of them are resolved. -/
def allValues {ε α : Type} : List (Promise ε α) → Option (List α)
  | [] => some []
  | .resolved a :: rest => (allValues rest).map (fun vs => a :: vs)
  | _ :: _ => none

/-- The function `Promise.all`: rejected as soon as one promise is rejected
(the model has no clock and takes the first rejected one of the list),
resolved with the values in the order of the list when all are resolved,
pending otherwise. -/
def Promise.all {ε α : Type} (ps : List (Promise ε α)) : Promise ε (List α) :=
  match firstRejection ps with
  | some e => .rejected e
  | none =>
    match allValues ps with
    | some vs => .resolved vs
    | none => .pending

/-! ## The function file resolver -/

/-- One character of a pattern under the flag `i`, for a pattern character of
ASCII: only the two cases of an ASCII letter canonicalise to it. -/
def eqIgnoreCase (c patternChar : Char) : Bool :=
  c.toLower == patternChar.toLower

/-- The end `\.sqf$` of the pattern, under the flag `i`. -/
def isDotSqf (s : Str) : Bool :=
  match s with
  | [c0, c1, c2, c3] =>
    eqIgnoreCase c0 '.' && eqIgnoreCase c1 's' && eqIgnoreCase c2 'q' && eqIgnoreCase c3 'f'
  | _ => false

/-- The part `.*\.sqf$` of the pattern: characters other than line
terminators, then the extension at the end of the string. -/
def matchesDotStarSqf : Str → Bool
  | [] => false
  | c :: rest => isDotSqf (c :: rest) || (!isLineTerminator c && matchesDotStarSqf rest)

/-- The test `/^fn.*\.sqf$/i.test(v)`. -/
def isFunctionFile (v : Str) : Bool :=
  match v with
  | c0 :: c1 :: rest => eqIgnoreCase c0 'f' && eqIgnoreCase c1 'n' && matchesDotStarSqf rest
  | _ => false

/-- The method `Array.prototype.sort` with a comparison function: `a` stays
before `b` when the comparison is not positive.  For a consistent comparison
the method is specified to give the stable sorted arrangement, which is what
insertion from the right builds. -/
def sortWith {α : Type} (compareFn : α → α → Int) (arr : List α) : List α :=
  arr.insertionSort (fun a b => compareFn a b ≤ 0)

/-- The method `lastIndexOf`: the last position at which `search` occurs, or
`-1` when it does not occur. -/
def lastIndexOf (str search : Str) : Int :=
  match (List.range (str.length + 1)).reverse.find? (fun i => search.isPrefixOf (str.drop i)) with
  | some i => (i : Int)
  | none => -1

/-- The call `str.substring(0, endIdx)`: a negative end counts as zero. -/
def substringTo (str : Str) (endIdx : Int) : Str :=
  str.take endIdx.toNat

/-- The element of the output. -/
structure ExtractedFunction where
  name : Str
  text : Str
  deriving DecidableEq, Repr

/-- The name the last `map` of `readFunctionFiles` builds for a file: `ACE_`,
the prefix, `_`, and the file's base name up to the last `.sqf`. -/
def functionName (pfx filePath : Str) : Str :=
  let fncName := basename filePath
  let endIdx := lastIndexOf fncName ['.', 's', 'q', 'f']
  ['A', 'C', 'E', '_'] ++ pfx ++ ['_'] ++ substringTo fncName endIdx

/-- The body of the last `map` of `readFunctionFiles`. -/
def toExtractedFunction (pfx : Str) (fnc : FileText) : ExtractedFunction :=
  { name := functionName pfx fnc.filePath, text := fnc.text }

/-- The options of `read`. -/
structure Options where
  onlyComments : Bool
  deriving DecidableEq, Repr

/-- The file names `readFunctionFiles` works on, in its order: the listing
filtered by the pattern and sorted by the locale comparison. -/
def functionFileNames (localeCompare : Str → Str → Int) (files : List Str) : List Str :=
  sortWith localeCompare (files.filter isFunctionFile)

/-- The function `readFunctionFiles`.  After `reject(e)` for a listing error
other than `ENOENT` the source goes on to `files.filter` on an undefined
`files`, which throws inside the callback of `readdir`; the promise is
rejected with `e` by then. -/
def readFunctionFiles (fsys : FileSystem) (localeCompare : Str → Str → Int)
    (dirFn pfx : Str) (options : Options) : Promise Err (List ExtractedFunction) :=
  match fsys.readdir dirFn with
  | .error code =>
    if code = ['E', 'N', 'O', 'E', 'N', 'T'] then .resolved []
    else .rejected (Err.system code)
  | .ok files =>
    Promise.map (fun functions => functions.map (toExtractedFunction pfx))
      (Promise.all
        (((functionFileNames localeCompare files).map (pathJoin dirFn)).map
          (fun v =>
            if options.onlyComments then getCommentsOn v (fsys.lineEvents v)
            else readFile fsys v)))

/-! ## Addon folders and the orchestrator -/

/-- The value `parseComponent` resolves with. -/
structure FolderRecord where
  pfx : Str
  functions : List ExtractedFunction
  deriving DecidableEq, Repr

/-- The final segment of a folder path, `getLast(folderPath.split(path.sep))`;
`split` never returns an empty array. -/
def folderPrefix (folderPath : Str) : Str :=
  (getLast (splitOnSep folderPath)).getD []

/-- The function `parseComponent`. -/
def parseComponent (fsys : FileSystem) (localeCompare : Str → Str → Int)
    (options : Options) (folderPath : Str) : Promise Err FolderRecord :=
  let pfx := folderPrefix folderPath
  let dirFn := pathJoin folderPath ['f', 'u', 'n', 'c', 't', 'i', 'o', 'n', 's']
  Promise.map (fun functions => { pfx := pfx, functions := functions })
    (readFunctionFiles fsys localeCompare dirFn pfx options)

/-- The function `readAllFolders`. -/
def readAllFolders (fsys : FileSystem) (localeCompare : Str → Str → Int)
    (folders : List Str) (options : Options) : Promise Err (List FolderRecord) :=
  Promise.all (folders.map (parseComponent fsys localeCompare options))

/-- An object created by `{}`: its own properties in creation order, and the
value its prototype was replaced with, if it was. -/
structure JsObject (β : Type) where
  props : List (Str × β)
  proto : Option β
  deriving DecidableEq, Repr

/-- The object `{}`. -/
def JsObject.empty {β : Type} : JsObject β :=
  { props := [], proto := none }

/-- The key that `Object.prototype` defines as an accessor. -/
def protoKey : Str := ['_', '_', 'p', 'r', 'o', 't', 'o', '_', '_']

/-- The assignment `obj[key] = value` of an object value (here always an
array) to an object created by `{}`: the key `__proto__` runs the setter of
`Object.prototype`, which replaces the prototype and creates no property;
any other key creates the own property or overwrites its value in place. -/
def JsObject.set {β : Type} (obj : JsObject β) (key : Str) (value : β) : JsObject β :=
  if key = protoKey then { obj with proto := some value }
  else if obj.props.any (fun kv => kv.1 == key) then
    { obj with props := obj.props.map (fun kv => if kv.1 == key then (key, value) else kv) }
  else { obj with props := obj.props ++ [(key, value)] }

/-- The own property `obj[key]`, if there is one. -/
def JsObject.getOwn {β : Type} (obj : JsObject β) (key : Str) : Option β :=
  (obj.props.find? (fun kv => kv.1 == key)).map (fun kv => kv.2)

/-- The number a key stands for when it is an array index: a canonical decimal
numeral below `2^32 - 1`. -/
def arrayIndex (key : Str) : Option Nat :=
  if key.isEmpty || !key.all Char.isDigit then none
  else if decide (1 < key.length) && key.head? == some '0' then none
  else
    let n := key.foldl (fun acc c => acc * 10 + (c.toNat - 48)) 0
    if n < 2 ^ 32 - 1 then some n else none

/-- The own keys in the order `Object.keys` and `for in` give them: array
indices first, ascending, then the other keys in creation order. -/
def JsObject.keys {β : Type} (obj : JsObject β) : List Str :=
  let indexed := obj.props.filterMap (fun kv => (arrayIndex kv.1).map (fun n => (n, kv.1)))
  ((indexed.insertionSort (fun a b => a.1 ≤ b.1)).map (fun nk => nk.2))
    ++ (obj.props.filter (fun kv => (arrayIndex kv.1).isNone)).map (fun kv => kv.1)

/-- The handler of the walker's `end` in `read`, with the folders the walker
found: the value is what the callback receives, an error or the mapping. -/
def read (fsys : FileSystem) (localeCompare : Str → Str → Int)
    (folders : List Str) (options : Options) :
    Promise Err (JsObject (List ExtractedFunction)) :=
  if folders.isEmpty then .rejected Err.noAddonFolders
  else
    Promise.map
      (fun data =>
        let sorted := sortWith (fun a b => localeCompare a.pfx b.pfx) data
        sorted.foldl (fun ret v => ret.set v.pfx v.functions) JsObject.empty)
      (readAllFolders fsys localeCompare folders options)

/-! ## Orders on names -/

/-- Comparison of two strings by code points, which is also the order of their
UTF-8 bytes: negative, zero or positive. -/
def codePointCompare : Str → Str → Int
  | [], [] => 0
  | [], _ :: _ => -1
  | _ :: _, [] => 1
  | a :: as, b :: bs =>
    if a.toNat < b.toNat then -1
    else if b.toNat < a.toNat then 1
    else codePointCompare as bs

/-- A locale comparison on names of ASCII letters, digits and dots, used to
run the module on concrete names: the names are compared without regard to
case first, and on a tie the lower-case letter goes first.  This is how
`localeCompare` orders such names under the default collation. -/
def asciiLocaleCompare (a b : Str) : Int :=
  let byLetter := codePointCompare (a.map Char.toLower) (b.map Char.toLower)
  if byLetter = 0 then codePointCompare b a else byLetter

/-- The text `needle` occurs in `text`. -/
def occursIn (needle text : Str) : Bool :=
  text.tails.any (fun t => needle.isPrefixOf t)

/-- What one line adds to `parsed` when it goes through the accumulating
branch of the `line` handler. -/
def pushedBy (line : Str) : List Str :=
  if (matchGroup1 line).isEmpty then []
  else if (trim (matchGroup1 line)).isEmpty then [] else [trim (matchGroup1 line)]

/-! ## What the specification says the scanner returns -/

/-- A body line as the specification words it: the leading run of stars and
white space removed, the remainder trimmed. -/
def strippedLine (line : Str) : Str :=
  trim (line.dropWhile isStarOrSpace)

/-- The body of a comment as the specification words it: the stripped body
lines, without the ones that are empty after stripping. -/
def strippedBody (body : List Str) : List Str :=
  (body.map strippedLine).filter (fun t => !t.isEmpty)

/-- A line without any line terminator. -/
def lineBreakFree (line : Str) : Prop :=
  ∀ c ∈ line, isLineTerminator c = false

instance (line : Str) : Decidable (lineBreakFree line) := by
  unfold lineBreakFree; infer_instance

/-- A line of the returned text as the scanner builds it: not empty, and not
starting with a star or a white space character. -/
def cleanSegment (seg : Str) : Bool :=
  match seg with
  | [] => false
  | c :: _ => !isStarOrSpace c

/-- A text that is the join of clean segments. -/
def joinOfCleanSegments (text : Str) : Prop :=
  ∃ segs : List Str, text = joinCRLF segs ∧ ∀ seg ∈ segs, cleanSegment seg = true

/-- The invariant of the scanner's state: every gathered line is clean, and a
text the promise was resolved with is a join of clean lines. -/
def Scanner.wellFormed (s : Scanner) : Prop :=
  (∀ seg ∈ s.parsed, cleanSegment seg = true) ∧
    ∀ text, s.promise = .resolved text → joinOfCleanSegments text

/-! ## File systems to run the module on -/

/-- A file system in which every folder lists `files` and the text of a file
is its own path. -/
def folderListing (files : List Str) : FileSystem :=
  { readdir := fun _ => .ok files,
    readFile := fun p => .ok p,
    lineEvents := fun _ => [ReaderEvent.eof] }

/-- A file system in which no `functions` folder exists. -/
def noFunctionsFolder : FileSystem :=
  { readdir := fun _ => .error ['E', 'N', 'O', 'E', 'N', 'T'],
    readFile := fun _ => .error ['E', 'N', 'O', 'E', 'N', 'T'],
    lineEvents := fun _ => [ReaderEvent.error ['E', 'N', 'O', 'E', 'N', 'T']] }

/-! ## The callback of `readdir`, statement by statement -/

/-- What a run of the callback that `readFunctionFiles` passes to `fs.readdir`
leaves behind: the state of the promise, and whether the callback ended by
throwing (a `TypeError`, which nothing catches). -/
structure CallbackRun where
  promise : Promise Err (List ExtractedFunction)
  threw : Bool
  deriving DecidableEq, Repr

/-- The chain `.then(v => resolve(f(v))).catch(reject)` on an inner promise:
the outer promise is settled after the inner one. -/
def Promise.settleFrom {ε α β : Type} (p : Promise ε β) (f : α → β) :
    Promise ε α → Promise ε β
  | .pending => p
  | .resolved a => p.resolve (f a)
  | .rejected e => p.reject e

/-- The callback `(e, files) => ...` of `readFunctionFiles`, with `e` the code
of the error or `none` for `null`, and `files` the listing or `none` for
`undefined`.  Only the branch for `ENOENT` returns: after `reject(e)` the
callback goes on to `files.filter(...)`, which throws on `undefined`. -/
def readdirCallback (fsys : FileSystem) (localeCompare : Str → Str → Int)
    (dirFn pfx : Str) (options : Options) (e : Option Str) (files : Option (List Str)) :
    CallbackRun :=
  let start : Promise Err (List ExtractedFunction) := .pending
  match
    (match e with
      | some code =>
        if code = ['E', 'N', 'O', 'E', 'N', 'T'] then Sum.inl (start.resolve [])
        else Sum.inr (start.reject (Err.system code))
      | none => Sum.inr start) with
  | Sum.inl returned => { promise := returned, threw := false }
  | Sum.inr promise =>
    match files with
    | none => { promise := promise, threw := true }
    | some files =>
      { promise :=
          promise.settleFrom (fun functions => functions.map (toExtractedFunction pfx))
            (Promise.all
              (((functionFileNames localeCompare files).map (pathJoin dirFn)).map
                (fun v =>
                  if options.onlyComments then getCommentsOn v (fsys.lineEvents v)
                  else readFile fsys v))),
        threw := false }

/-- The function `readFunctionFiles` as a run of its callback: `fs.readdir`
calls back with the error alone or with `null` and the listing. -/
def readFunctionFilesRun (fsys : FileSystem) (localeCompare : Str → Str → Int)
    (dirFn pfx : Str) (options : Options) : CallbackRun :=
  match fsys.readdir dirFn with
  | .error code => readdirCallback fsys localeCompare dirFn pfx options (some code) none
  | .ok files => readdirCallback fsys localeCompare dirFn pfx options none (some files)

/-! ## What the specification says about the filter and the text -/

/-- The character is one of the two cases of a letter. -/
def anyCaseOf (lower upper c : Char) : Bool :=
  c == lower || c == upper

/-- The four characters are `.sqf` in any letter case. -/
def isDotSqfAnyCase (ext : Str) : Bool :=
  match ext with
  | [e0, e1, e2, e3] =>
    e0 == '.' && anyCaseOf 's' 'S' e1 && anyCaseOf 'q' 'Q' e2 && anyCaseOf 'f' 'F' e3
  | _ => false

/-- The filter as the specification words it: the first two characters are
`fn` in any letter case, and what follows them ends with `.sqf` in any letter
case. -/
def acceptedBySpec (v : Str) : Bool :=
  match v with
  | c0 :: c1 :: rest =>
    anyCaseOf 'f' 'F' c0 && anyCaseOf 'n' 'N' c1
      && isDotSqfAnyCase (rest.drop (rest.length - 4))
  | _ => false

/-- The segments of a text between occurrences of carriage return, line feed
(`text.split('\r\n')`). -/
def splitCRLF : Str → List Str
  | [] => [[]]
  | [c] => [[c]]
  | c :: d :: rest =>
    if c = '\r' ∧ d = '\n' then [] :: splitCRLF rest
    else
      match splitCRLF (d :: rest) with
      | [] => [[c]]
      | seg :: segs => (c :: seg) :: segs

/-- The text the specification gives for the lines before the first closing
line: the stripped forms, without the empty ones, of all of them but the first
line that matches the opening pattern. -/
def textBeforeClose (pre : List Str) : Str :=
  joinCRLF (strippedBody (pre.eraseP opensComment))

/-- A file system in which the `functions` folders cannot be listed. -/
def unreadableFunctionsFolder : FileSystem :=
  { readdir := fun _ => .error ['E', 'A', 'C', 'C', 'E', 'S'],
    readFile := fun _ => .error ['E', 'A', 'C', 'C', 'E', 'S'],
    lineEvents := fun _ => [ReaderEvent.error ['E', 'A', 'C', 'C', 'E', 'S']] }

/-! ## Lemmas on the scanner -/

theorem takeWhile_not_lineTerminator (l : Str) (h : lineBreakFree l) :
    l.takeWhile (fun c => !isLineTerminator c) = l := by
  induction l with
  | nil => rfl
  | cons c t ih =>
    have hc : isLineTerminator c = false := h c (List.mem_cons_self _ _)
    have ht : lineBreakFree t := fun d hd => h d (List.mem_cons_of_mem _ hd)
    simp [List.takeWhile, hc, ih ht]

theorem matchGroup1_of_lineBreakFree (line : Str) (h : lineBreakFree line) :
    matchGroup1 line = line.dropWhile isStarOrSpace := by
  unfold matchGroup1
  apply takeWhile_not_lineTerminator
  intro c hc
  exact h c ((List.dropWhile_sublist _).subset hc)

theorem trim_nil : trim [] = [] := rfl

theorem pushedBy_of_lineBreakFree (line : Str) (h : lineBreakFree line) :
    pushedBy line = if (strippedLine line).isEmpty then [] else [strippedLine line] := by
  unfold pushedBy strippedLine
  rw [matchGroup1_of_lineBreakFree line h]
  by_cases h0 : (line.dropWhile isStarOrSpace).isEmpty = true
  · have : line.dropWhile isStarOrSpace = [] := List.isEmpty_iff.mp h0
    simp [this, trim_nil]
  · simp [h0]

theorem join_pushedBy_eq_strippedBody (body : List Str) (h : ∀ b ∈ body, lineBreakFree b) :
    (body.map pushedBy).flatten = strippedBody body := by
  induction body with
  | nil => rfl
  | cons b t ih =>
    have hb := pushedBy_of_lineBreakFree b (h b (List.mem_cons_self _ _))
    have ht := ih (fun x hx => h x (List.mem_cons_of_mem _ hx))
    unfold strippedBody at ht ⊢
    simp only [List.map_cons, List.flatten_cons, ht, hb, List.filter_cons]
    by_cases h0 : (strippedLine b).isEmpty = true <;> simp [h0]

/-- A line in the state where the comment has started that does not close it:
the counter goes up and the line's text, if any, is appended. -/
theorem onLine_inComment (fp : Str) (s : Scanner) (line : Str)
    (hs : s.startParse = true) (hc : closesComment line = false) :
    onLine fp s line =
      { s with linesRead := s.linesRead + 1, parsed := s.parsed ++ pushedBy line } := by
  unfold onLine pushedBy
  simp only [hs, hc, Bool.not_true, Bool.false_and, Bool.false_eq_true, if_false]
  by_cases h1 : (matchGroup1 line).isEmpty = true
  · simp [h1]
  · by_cases h2 : (trim (matchGroup1 line)).isEmpty = true
    · simp [h1, h2]
    · simp [h1, h2]

/-- The body lines of a started comment, none of which closes it. -/
theorem foldl_deliver_body (fp : Str) (body : List Str) (s : Scanner)
    (hs : s.startParse = true) (hcl : s.closed = false)
    (hb : ∀ b ∈ body, closesComment b = false) :
    (body.map ReaderEvent.line).foldl (deliver fp) s =
      { s with linesRead := s.linesRead + body.length,
               parsed := s.parsed ++ (body.map pushedBy).flatten } := by
  induction body generalizing s with
  | nil => simp
  | cons b t ih =>
    have hb0 := hb b (List.mem_cons_self _ _)
    simp only [List.map_cons, List.foldl_cons, deliver, hcl, Bool.false_eq_true, if_false]
    rw [onLine_inComment fp s b hs hb0]
    rw [ih { s with linesRead := s.linesRead + 1, parsed := s.parsed ++ pushedBy b } hs hcl
      (fun x hx => hb x (List.mem_cons_of_mem _ hx))]
    simp [Nat.add_assoc, Nat.add_comm 1, hcl]

/-- A closing line in the state where the comment has started settles a
pending promise with the text gathered so far. -/
theorem onLine_close_promise (fp : Str) (s : Scanner) (line : Str)
    (hs : s.startParse = true) (hc : closesComment line = true) :
    (onLine fp s line).promise = s.promise.resolve (joinCRLF s.parsed) ∧
      (onLine fp s line).closed = true ∧
      (onLine fp s line).linesRead = s.linesRead + 1 := by
  unfold onLine
  simp only [hs, hc, Bool.not_true, Bool.false_and, Bool.false_eq_true, if_false, if_true]
  by_cases h1 : (matchGroup1 line).isEmpty = true
  · simp [h1]
  · by_cases h2 : (trim (matchGroup1 line)).isEmpty = true
    · simp [h1, h2]
    · simp [h1, h2]

/-- The handler of `end` leaves a settled promise as it is. -/
theorem onEnd_promise_of_resolved (fp : Str) (s : Scanner) (text : Str)
    (h : s.promise = .resolved text) : (onEnd fp s).promise = .resolved text := by
  unfold onEnd
  split
  · simp [h, Promise.reject]
  · simp [arrayIsTruthy, h]

/-- An opening line as the first line starts the comment and nothing else. -/
theorem onLine_init_open (fp : Str) (line : Str) (ho : opensComment line = true) :
    onLine fp Scanner.init line =
      { parsed := [], linesRead := 1, startParse := true, closed := false,
        promise := .pending } := by
  simp [onLine, Scanner.init, ho]

/-! ## The scanner on a well-formed header comment -/

/-- C1 (a defect of the code): a body line that holds a line separator.  The
source says of its pattern that it removes any leading space or stars, but
the group `(.*)` stops at U+2028: the scanner returns `abc` where the body
line with its leading run removed and then trimmed is `abc`, U+2028, `def`. -/
theorem scanner_cuts_body_line_at_line_separator :
    opensComment "/*".toList = true ∧
    closesComment " * abc\u2028def".toList = false ∧
    closesComment " */".toList = true ∧
    getFunctionHeaderComments "fnA.sqf".toList
        ("/*".toList :: [" * abc\u2028def".toList] ++ [" */".toList])
      = .resolved "abc".toList ∧
    joinCRLF (strippedBody [" * abc\u2028def".toList]) = "abc\u2028def".toList ∧
    getFunctionHeaderComments "fnA.sqf".toList
        ("/*".toList :: [" * abc\u2028def".toList] ++ [" */".toList])
      ≠ .resolved (joinCRLF (strippedBody [" * abc\u2028def".toList])) := by
  decide

/-- What the code does on a header comment whose body lines hold no line
terminator: on an opening line, then body lines none of which matches the
closing pattern, then a closing line, the scanner resolves with exactly the
body lines, each with its leading run of stars and white space removed and
then trimmed, the empty ones dropped, joined by carriage return and line
feed. -/
theorem scanner_returns_stripped_body (fp openLine closeLine : Str) (body : List Str)
    (ho : opensComment openLine = true)
    (hb : ∀ b ∈ body, closesComment b = false)
    (hc : closesComment closeLine = true)
    (hlb : ∀ b ∈ body, lineBreakFree b) :
    getFunctionHeaderComments fp (openLine :: body ++ [closeLine])
      = .resolved (joinCRLF (strippedBody body)) := by
  unfold getFunctionHeaderComments scanEvents
  simp only [List.map_cons, List.map_append, List.map_nil, List.cons_append, List.foldl_cons,
    List.foldl_append, List.foldl_nil]
  have h1 : deliver fp Scanner.init (ReaderEvent.line openLine) =
      { parsed := [], linesRead := 1, startParse := true, closed := false,
        promise := .pending } := by
    simp only [deliver, Scanner.init, Bool.false_eq_true, if_false]
    exact onLine_init_open fp openLine ho
  rw [h1, foldl_deliver_body fp body _ rfl rfl hb]
  simp only [deliver, Bool.false_eq_true, if_false, List.nil_append]
  apply onEnd_promise_of_resolved
  rw [(onLine_close_promise fp _ closeLine rfl hc).1]
  simp [Promise.resolve, join_pushedBy_eq_strippedBody body hlb]

/-- The header comment of the specification's round trip. -/
theorem scanner_returns_stripped_body_witness :
    getFunctionHeaderComments "fnA.sqf".toList
        ("/*".toList :: [" * Line one.".toList, " * Line two.".toList] ++ [" */".toList])
      = .resolved (joinCRLF (strippedBody [" * Line one.".toList, " * Line two.".toList])) ∧
    joinCRLF (strippedBody [" * Line one.".toList, " * Line two.".toList])
      = "Line one.\r\nLine two.".toList :=
  ⟨scanner_returns_stripped_body _ _ _ _ (by decide) (by decide) (by decide) (by decide),
    by decide⟩

/-! ## The scanner outside a well-formed header comment -/

/-- A settled promise is not changed by any further event. -/
theorem promise_deliver_of_rejected (fp : Str) (s : Scanner) (ev : ReaderEvent) (e : Err)
    (h : s.promise = .rejected e) : (deliver fp s ev).promise = .rejected e := by
  cases ev with
  | line text =>
    show (if s.closed = true then s else onLine fp s text).promise = .rejected e
    by_cases hc : s.closed = true
    · simpa [hc] using h
    · simp only [hc, if_false]
      unfold onLine
      simp only []
      split_ifs <;> simp [h, Promise.reject, Promise.resolve]
  | error code => simp [deliver, onError, h, Promise.reject]
  | eof =>
    show (onEnd fp s).promise = .rejected e
    unfold onEnd
    split_ifs <;> simp [h, Promise.reject]

theorem promise_foldl_deliver_of_rejected (fp : Str) (events : List ReaderEvent) (s : Scanner)
    (e : Err) (h : s.promise = .rejected e) :
    (events.foldl (deliver fp) s).promise = .rejected e := by
  induction events generalizing s with
  | nil => exact h
  | cons ev rest ih => exact ih _ (promise_deliver_of_rejected fp s ev e h)

/-- A line before the comment that neither opens nor closes one goes through
the accumulating branch: only the counter and `parsed` change, as long as it is
not the third line. -/
theorem onLine_beforeComment (fp : Str) (s : Scanner) (line : Str)
    (hs : s.startParse = false) (hn : s.linesRead < 2)
    (ho : opensComment line = false) (hc : closesComment line = false) :
    onLine fp s line =
      { s with linesRead := s.linesRead + 1, parsed := s.parsed ++ pushedBy line } := by
  have h3 : ¬ (3 ≤ s.linesRead + 1) := by omega
  unfold onLine pushedBy
  simp only [hs, ho, hc, h3, Bool.not_false, Bool.true_and, decide_False, Bool.false_eq_true,
    if_false, Bool.and_false]
  by_cases h1 : (matchGroup1 line).isEmpty = true
  · simp [h1]
  · by_cases h2 : (trim (matchGroup1 line)).isEmpty = true
    · simp [h1, h2]
    · simp [h1, h2]

/-- The third line, when no comment has started, rejects a pending promise
with the missing-documentation error for the file path. -/
theorem onLine_third_line_rejects (fp : Str) (s : Scanner) (line : Str)
    (hs : s.startParse = false) (hn : s.linesRead = 2) (hp : s.promise = .pending) :
    (onLine fp s line).promise = .rejected (Err.missingDocumentation fp) := by
  unfold onLine
  simp only [hs, hn, hp, Bool.not_false, Bool.true_and]
  split_ifs <;> simp_all [Promise.reject, Promise.resolve]

/-- What the code does for an unclosed comment: when the comment opens on
line 1, at least one more line follows and no line closes the comment, the
promise is pending after the end of the file. -/
theorem scanner_pending_of_unclosed (fp openLine : Str) (b : Str) (body : List Str)
    (ho : opensComment openLine = true)
    (hb : ∀ x ∈ b :: body, closesComment x = false) :
    getFunctionHeaderComments fp (openLine :: b :: body) = .pending := by
  unfold getFunctionHeaderComments scanEvents
  rw [show (openLine :: b :: body).map ReaderEvent.line ++ [ReaderEvent.eof]
      = ReaderEvent.line openLine :: ((b :: body).map ReaderEvent.line ++ [ReaderEvent.eof])
      from rfl]
  rw [List.foldl_cons, List.foldl_append]
  have h1 : deliver fp Scanner.init (ReaderEvent.line openLine) =
      { parsed := [], linesRead := 1, startParse := true, closed := false,
        promise := .pending } := by
    simp only [deliver, Scanner.init, Bool.false_eq_true, if_false]
    exact onLine_init_open fp openLine ho
  rw [h1, foldl_deliver_body fp (b :: body) _ rfl rfl hb]
  have hlen : ¬ (1 + (body.length + 1) < 2) := by omega
  simp [deliver, onEnd, arrayIsTruthy, hlen]

/-- What the code does when no comment starts on the first two lines and
neither of them matches the closing pattern: with a third line the promise is
rejected with the missing-documentation error. -/
theorem scanner_missing_documentation (fp l1 l2 l3 : Str) (rest : List Str)
    (ho1 : opensComment l1 = false) (hc1 : closesComment l1 = false)
    (ho2 : opensComment l2 = false) (hc2 : closesComment l2 = false) :
    getFunctionHeaderComments fp (l1 :: l2 :: l3 :: rest)
      = .rejected (Err.missingDocumentation fp) := by
  unfold getFunctionHeaderComments scanEvents
  simp only [List.map_cons, List.cons_append, List.foldl_cons]
  apply promise_foldl_deliver_of_rejected
  have e1 : deliver fp Scanner.init (ReaderEvent.line l1) =
      { Scanner.init with linesRead := 1, parsed := pushedBy l1 } := by
    simp only [deliver, Scanner.init, Bool.false_eq_true, if_false]
    exact onLine_beforeComment fp _ l1 rfl (by simp) ho1 hc1
  rw [e1]
  have e2 : deliver fp { Scanner.init with linesRead := 1, parsed := pushedBy l1 }
        (ReaderEvent.line l2) =
      { Scanner.init with linesRead := 2, parsed := pushedBy l1 ++ pushedBy l2 } := by
    simp only [deliver, Scanner.init, Bool.false_eq_true, if_false]
    exact onLine_beforeComment fp _ l2 rfl (by simp) ho2 hc2
  rw [e2]
  simp only [deliver, Scanner.init, Bool.false_eq_true, if_false]
  exact onLine_third_line_rejects fp _ l3 rfl rfl rfl

/-- What the code does for a file of no line, or of one line that does not
match the closing pattern: the promise is rejected with the empty-file error. -/
theorem scanner_empty_file (fp : Str) :
    getFunctionHeaderComments fp [] = .rejected (Err.emptyFile (basename fp)) ∧
    ∀ line, closesComment line = false →
      getFunctionHeaderComments fp [line] = .rejected (Err.emptyFile (basename fp)) := by
  refine ⟨by simp [getFunctionHeaderComments, scanEvents, deliver, onEnd, Scanner.init,
    Promise.reject], ?_⟩
  intro line hc
  unfold getFunctionHeaderComments scanEvents
  simp only [List.map_cons, List.map_nil, List.cons_append, List.nil_append, List.foldl_cons,
    List.foldl_nil]
  by_cases ho : opensComment line = true
  · have h1 : deliver fp Scanner.init (ReaderEvent.line line) =
        { parsed := [], linesRead := 1, startParse := true, closed := false,
          promise := .pending } := by
      simp only [deliver, Scanner.init, Bool.false_eq_true, if_false]
      exact onLine_init_open fp line ho
    rw [h1]
    simp [deliver, onEnd, Promise.reject]
  · have h1 : deliver fp Scanner.init (ReaderEvent.line line) =
        { Scanner.init with linesRead := 1, parsed := pushedBy line } := by
      simp only [deliver, Scanner.init, Bool.false_eq_true, if_false]
      exact onLine_beforeComment fp _ line rfl (by simp) (by simpa using ho) hc
    rw [h1]
    simp [deliver, onEnd, Promise.reject, Scanner.init]

/-- The function `getComments` never rejects, and it resolves exactly when the
scanner settles: with the scanner's text, or with the empty text after a
rejection. -/
theorem getComments_of_scanner (fp : Str) (lines : List Str) :
    (∀ e, getComments fp lines ≠ .rejected e) ∧
    (∀ text, getFunctionHeaderComments fp lines = .resolved text →
      getComments fp lines = .resolved { filePath := fp, text := text }) ∧
    (∀ e, getFunctionHeaderComments fp lines = .rejected e →
      getComments fp lines = .resolved { filePath := fp, text := [] }) ∧
    (getFunctionHeaderComments fp lines = .pending → getComments fp lines = .pending) := by
  unfold getComments getCommentsOn getFunctionHeaderComments getFunctionHeaderCommentsOn
  refine ⟨?_, ?_, ?_, ?_⟩
  · intro e
    split <;> simp
  · intro text h; simp [h]
  · intro e h; simp [h]
  · intro h; simp [h]

/-! ## End of file inside a comment -/

/-- C2 (a defect of the code): a comment that opens on line 1 and is
never closed, in a file of two lines.  At the end of the file neither check of
the `end` handler fires (two lines were read, and an array is truthy): the
promise is left pending, with no result and no failure. -/
theorem scanner_unclosed_comment_stays_pending :
    opensComment "/*".toList = true ∧
    closesComment " * never closed".toList = false ∧
    getFunctionHeaderComments "fnA.sqf".toList ["/*".toList, " * never closed".toList]
      = .pending := by
  decide

/-- C3 (a defect of the code): on the file of C2 the promise of
`getComments` never settles either, so no record is produced for the file. -/
theorem getComments_unclosed_comment_stays_pending :
    getComments "fnA.sqf".toList ["/*".toList, " * never closed".toList] = .pending := by
  decide

/-! ## Names and order of the function files -/

/-- C4 (a defect of the code): the filter accepts a file whose
extension is in upper case, and `lastIndexOf('.sqf')`, which tells the cases
apart, does not find the extension: the whole file name is cut off. -/
theorem readFunctionFiles_upper_case_extension :
    isFunctionFile "fnDoStuff.SQF".toList = true ∧
    readFunctionFiles (folderListing ["fnDoStuff.SQF".toList]) asciiLocaleCompare
        "/ace/addons/medical/functions".toList "medical".toList { onlyComments := false }
      = .resolved [{ name := "ACE_medical_".toList,
                     text := "/ace/addons/medical/functions/fnDoStuff.SQF".toList }] := by
  decide

/-! ## Sorting with a comparison function -/

theorem sorted_orderedInsert_on {α : Type} (r : α → α → Prop) [DecidableRel r] (x : α)
    (l : List α) (hl : l.Sorted r) (htot : ∀ b ∈ l, r x b ∨ r b x)
    (htr : ∀ b ∈ l, ∀ c ∈ l, r x b → r b c → r x c) :
    (l.orderedInsert r x).Sorted r := by
  induction l with
  | nil => simp
  | cons y ys ih =>
    have hy := List.sorted_cons.mp hl
    by_cases hxy : r x y
    · simp only [List.orderedInsert, hxy, if_true]
      refine List.sorted_cons.mpr ⟨?_, hl⟩
      intro z hz
      rcases List.mem_cons.mp hz with rfl | hz
      · exact hxy
      · exact htr y (List.mem_cons_self _ _) z (List.mem_cons_of_mem _ hz) hxy (hy.1 z hz)
    · simp only [List.orderedInsert, hxy, if_false]
      refine List.sorted_cons.mpr ⟨?_, ?_⟩
      · intro z hz
        rcases (List.mem_orderedInsert r).mp hz with rfl | hz
        · exact (htot y (List.mem_cons_self _ _)).resolve_left hxy
        · exact hy.1 z hz
      · exact ih hy.2 (fun b hb => htot b (List.mem_cons_of_mem _ hb))
          (fun b hb c hc => htr b (List.mem_cons_of_mem _ hb) c (List.mem_cons_of_mem _ hc))

theorem sorted_insertionSort_on {α : Type} (r : α → α → Prop) [DecidableRel r] (l : List α)
    (htot : ∀ a ∈ l, ∀ b ∈ l, r a b ∨ r b a)
    (htr : ∀ a ∈ l, ∀ b ∈ l, ∀ c ∈ l, r a b → r b c → r a c) :
    (l.insertionSort r).Sorted r := by
  induction l with
  | nil => simp
  | cons x xs ih =>
    have hmem : ∀ b, b ∈ xs.insertionSort r → b ∈ x :: xs := fun b hb =>
      List.mem_cons_of_mem _ ((List.perm_insertionSort r xs).mem_iff.mp hb)
    simp only [List.insertionSort]
    apply sorted_orderedInsert_on
    · exact ih (fun a ha b hb => htot a (List.mem_cons_of_mem _ ha) b (List.mem_cons_of_mem _ hb))
        (fun a ha b hb c hc => htr a (List.mem_cons_of_mem _ ha) b (List.mem_cons_of_mem _ hb)
          c (List.mem_cons_of_mem _ hc))
    · exact fun b hb => htot x (List.mem_cons_self _ _) b (hmem b hb)
    · exact fun b hb c hc => htr x (List.mem_cons_self _ _) b (hmem b hb) c (hmem c hc)

theorem eq_of_perm_of_sorted_on {α : Type} (r : α → α → Prop) :
    ∀ (l₁ l₂ : List α), l₁.Perm l₂ → l₁.Sorted r → l₂.Sorted r →
      (∀ a ∈ l₁, ∀ b ∈ l₁, r a b → r b a → a = b) → l₁ = l₂ := by
  intro l₁
  induction l₁ with
  | nil => intro l₂ hp _ _ _; exact hp.nil_eq
  | cons a t₁ ih =>
    intro l₂ hp h₁ h₂ hanti
    cases l₂ with
    | nil => exact absurd hp.symm.nil_eq (by simp)
    | cons b t₂ =>
      have ha : a ∈ b :: t₂ := hp.mem_iff.mp (List.mem_cons_self _ _)
      have hb : b ∈ a :: t₁ := hp.mem_iff.mpr (List.mem_cons_self _ _)
      have hab : a = b := by
        rcases List.mem_cons.mp ha with h | h
        · exact h
        · rcases List.mem_cons.mp hb with h' | h'
          · exact h'.symm
          · exact hanti a (List.mem_cons_self _ _) b hb
              ((List.sorted_cons.mp h₁).1 b h') ((List.sorted_cons.mp h₂).1 a h)
      subst hab
      have ht : t₁ = t₂ := ih t₂ (List.Perm.cons_inv hp) (List.sorted_cons.mp h₁).2
        (List.sorted_cons.mp h₂).2
        (fun x hx y hy => hanti x (List.mem_cons_of_mem _ hx) y (List.mem_cons_of_mem _ hy))
      rw [ht]

/-- The sorted arrangement does not depend on the order of the input when the
comparison is a total order on its elements. -/
theorem sortWith_eq_of_perm {α : Type} (compareFn : α → α → Int) (l l' : List α)
    (hp : l'.Perm l)
    (htot : ∀ a ∈ l, ∀ b ∈ l, compareFn a b ≤ 0 ∨ compareFn b a ≤ 0)
    (htr : ∀ a ∈ l, ∀ b ∈ l, ∀ c ∈ l,
      compareFn a b ≤ 0 → compareFn b c ≤ 0 → compareFn a c ≤ 0)
    (hanti : ∀ a ∈ l, ∀ b ∈ l, compareFn a b ≤ 0 → compareFn b a ≤ 0 → a = b) :
    sortWith compareFn l' = sortWith compareFn l := by
  unfold sortWith
  have hm : ∀ a, a ∈ l' ↔ a ∈ l := fun a => hp.mem_iff
  apply eq_of_perm_of_sorted_on (fun a b => compareFn a b ≤ 0)
  · exact ((List.perm_insertionSort _ l').trans hp).trans (List.perm_insertionSort _ l).symm
  · exact sorted_insertionSort_on _ l'
      (fun a ha b hb => htot a ((hm a).mp ha) b ((hm b).mp hb))
      (fun a ha b hb c hc => htr a ((hm a).mp ha) b ((hm b).mp hb) c ((hm c).mp hc))
  · exact sorted_insertionSort_on _ l htot htr
  · intro a ha b hb
    have ha' := (hm a).mp ((List.perm_insertionSort _ l').mem_iff.mp ha)
    have hb' := (hm b).mp ((List.perm_insertionSort _ l').mem_iff.mp hb)
    exact hanti a ha' b hb'

/-! ## The order of the output of `readFunctionFiles` -/

theorem map_eq_resolved {ε α β : Type} (f : α → β) (p : Promise ε α) (b : β)
    (h : Promise.map f p = .resolved b) : ∃ a, p = .resolved a ∧ b = f a := by
  cases p with
  | pending => simp [Promise.map] at h
  | resolved a => exact ⟨a, rfl, by simpa [Promise.map] using h.symm⟩
  | rejected e => simp [Promise.map] at h

theorem allValues_of_all_resolved {ε α : Type} (ps : List (Promise ε α)) (vs : List α)
    (h : Promise.all ps = .resolved vs) : allValues ps = some vs := by
  unfold Promise.all at h
  cases hr : firstRejection ps with
  | some e => simp [hr] at h
  | none =>
    cases hv : allValues ps with
    | none => simp [hr, hv] at h
    | some ws => simpa [hr, hv] using h

theorem filePath_of_allValues (work : Str → Promise Err FileText)
    (hw : ∀ v r, work v = .resolved r → r.filePath = v) :
    ∀ (paths : List Str) (vs : List FileText),
      allValues (paths.map work) = some vs → vs.map (fun r => r.filePath) = paths := by
  intro paths
  induction paths with
  | nil => intro vs h; simp [allValues] at h; simp [h]
  | cons v rest ih =>
    intro vs h
    simp only [List.map_cons] at h
    cases hwv : work v with
    | pending => simp [hwv, allValues] at h
    | rejected e => simp [hwv, allValues] at h
    | resolved r =>
      simp only [hwv, allValues, Option.map_eq_some'] at h
      obtain ⟨ws, hws, rfl⟩ := h
      simp [ih ws hws, hw v r hwv]

theorem filePath_getCommentsOn (v : Str) (events : List ReaderEvent) (r : FileText)
    (h : getCommentsOn v events = .resolved r) : r.filePath = v := by
  unfold getCommentsOn at h
  split at h <;> simp at h
  all_goals simp [← h]

theorem filePath_readFile (fsys : FileSystem) (v : Str) (r : FileText)
    (h : readFile fsys v = .resolved r) : r.filePath = v := by
  unfold readFile at h
  split at h <;> simp at h
  simp [← h]

/-- C5 without its amendment fails: under a locale comparison that puts `fna.sqf` before
`fnB.sqf` the output starts with `fna`, while the ascending order of the code
points (and of the bytes) starts with `fnB.sqf`. -/
theorem readFunctionFiles_order_counterexample :
    asciiLocaleCompare "fna.sqf".toList "fnB.sqf".toList < 0 ∧
    readFunctionFiles (folderListing ["fnB.sqf".toList, "fna.sqf".toList]) asciiLocaleCompare
        "/ace/addons/medical/functions".toList "medical".toList { onlyComments := false }
      = .resolved [{ name := "ACE_medical_fna".toList,
                     text := "/ace/addons/medical/functions/fna.sqf".toList },
                   { name := "ACE_medical_fnB".toList,
                     text := "/ace/addons/medical/functions/fnB.sqf".toList }] ∧
    sortWith codePointCompare (["fnB.sqf".toList, "fna.sqf".toList].filter isFunctionFile)
      = ["fnB.sqf".toList, "fna.sqf".toList] := by
  decide

/-- C5 (amended): for every directory listing on whose accepted names the
locale comparison is total and transitive, the names the output is built from
are the accepted file names in ascending order of the locale comparison (not
of the bytes), the output follows that order, and, when the comparison also
tells any two distinct accepted names apart, the output is the same for every
permutation of the listing. -/
theorem readFunctionFiles_order_by_localeCompare
    (fsys : FileSystem) (localeCompare : Str → Str → Int) (dirFn pfx : Str)
    (options : Options) (files : List Str)
    (hdir : fsys.readdir dirFn = .ok files)
    (htotal : ∀ a ∈ files.filter isFunctionFile, ∀ b ∈ files.filter isFunctionFile,
      localeCompare a b ≤ 0 ∨ localeCompare b a ≤ 0)
    (htrans : ∀ a ∈ files.filter isFunctionFile, ∀ b ∈ files.filter isFunctionFile,
      ∀ c ∈ files.filter isFunctionFile,
        localeCompare a b ≤ 0 → localeCompare b c ≤ 0 → localeCompare a c ≤ 0) :
    (functionFileNames localeCompare files).Perm (files.filter isFunctionFile) ∧
    (functionFileNames localeCompare files).Sorted (fun a b => localeCompare a b ≤ 0) ∧
    (∀ out, readFunctionFiles fsys localeCompare dirFn pfx options = .resolved out →
      out.map (fun f => f.name) =
        (functionFileNames localeCompare files).map
          (fun v => functionName pfx (pathJoin dirFn v))) ∧
    ((∀ a ∈ files.filter isFunctionFile, ∀ b ∈ files.filter isFunctionFile,
        localeCompare a b ≤ 0 → localeCompare b a ≤ 0 → a = b) →
      ∀ (fsys' : FileSystem) (files' : List Str),
        files'.Perm files → fsys'.readdir dirFn = .ok files' →
        fsys'.readFile = fsys.readFile → fsys'.lineEvents = fsys.lineEvents →
        readFunctionFiles fsys' localeCompare dirFn pfx options =
          readFunctionFiles fsys localeCompare dirFn pfx options) := by
  refine ⟨?_, ?_, ?_, ?_⟩
  · exact List.perm_insertionSort _ _
  · exact sorted_insertionSort_on _ _ htotal htrans
  · intro out hout
    unfold readFunctionFiles at hout
    simp only [hdir] at hout
    obtain ⟨vs, hall, rfl⟩ := map_eq_resolved _ _ _ hout
    have hvals := allValues_of_all_resolved _ _ hall
    have hpaths := filePath_of_allValues
      (fun v => if options.onlyComments = true then getCommentsOn v (fsys.lineEvents v)
        else readFile fsys v)
      (fun v r hr => by
        by_cases hoc : options.onlyComments = true
        · simp only [hoc, if_true] at hr
          exact filePath_getCommentsOn v _ r hr
        · simp only [hoc, if_false] at hr
          exact filePath_readFile fsys v r hr)
      _ vs hvals
    have hname : (vs.map (toExtractedFunction pfx)).map (fun f => f.name) =
        (vs.map (fun r => r.filePath)).map (functionName pfx) := by
      simp [List.map_map, toExtractedFunction, Function.comp_def]
    rw [hname, hpaths, List.map_map]
    rfl
  · intro hanti fsys' files' hperm hdir' hrf hle
    have hnames : functionFileNames localeCompare files' = functionFileNames localeCompare files :=
      sortWith_eq_of_perm localeCompare _ _ (hperm.filter _) htotal htrans hanti
    unfold readFunctionFiles
    simp only [hdir, hdir', hnames]
    unfold readFile
    simp only [hrf, hle]

/-- The theorem on a listing of three entries, two of them function files, under
the comparison that puts `fna.sqf` before `fnB.sqf`. -/
theorem readFunctionFiles_order_by_localeCompare_witness :
    functionFileNames asciiLocaleCompare
        ["fnB.sqf".toList, "readme.txt".toList, "fna.sqf".toList]
      = ["fna.sqf".toList, "fnB.sqf".toList] ∧
    (functionFileNames asciiLocaleCompare
        ["fnB.sqf".toList, "readme.txt".toList, "fna.sqf".toList]).Sorted
      (fun a b => asciiLocaleCompare a b ≤ 0) ∧
    (∀ out,
      readFunctionFiles
          (folderListing ["fnB.sqf".toList, "readme.txt".toList, "fna.sqf".toList])
          asciiLocaleCompare "/ace/addons/medical/functions".toList "medical".toList
          { onlyComments := false } = .resolved out →
      out.map (fun f => f.name) =
        (functionFileNames asciiLocaleCompare
            ["fnB.sqf".toList, "readme.txt".toList, "fna.sqf".toList]).map
          (fun v => functionName "medical".toList
            (pathJoin "/ace/addons/medical/functions".toList v))) ∧
    (∀ (fsys' : FileSystem) (files' : List Str),
      files'.Perm ["fnB.sqf".toList, "readme.txt".toList, "fna.sqf".toList] →
      fsys'.readdir "/ace/addons/medical/functions".toList = .ok files' →
      fsys'.readFile
        = (folderListing ["fnB.sqf".toList, "readme.txt".toList, "fna.sqf".toList]).readFile →
      fsys'.lineEvents
        = (folderListing ["fnB.sqf".toList, "readme.txt".toList, "fna.sqf".toList]).lineEvents →
      readFunctionFiles fsys' asciiLocaleCompare "/ace/addons/medical/functions".toList
          "medical".toList { onlyComments := false } =
        readFunctionFiles
          (folderListing ["fnB.sqf".toList, "readme.txt".toList, "fna.sqf".toList])
          asciiLocaleCompare "/ace/addons/medical/functions".toList "medical".toList
          { onlyComments := false }) :=
  have h := readFunctionFiles_order_by_localeCompare
    (folderListing ["fnB.sqf".toList, "readme.txt".toList, "fna.sqf".toList])
    asciiLocaleCompare "/ace/addons/medical/functions".toList "medical".toList
    { onlyComments := false } ["fnB.sqf".toList, "readme.txt".toList, "fna.sqf".toList]
    rfl (by decide) (by decide)
  ⟨by decide, h.2.1, h.2.2.1, h.2.2.2 (by decide)⟩

/-! ## The shape of the returned text -/

theorem reject_eq_resolved {ε α : Type} (p : Promise ε α) (e : ε) (a : α)
    (h : p.reject e = .resolved a) : p = .resolved a := by
  cases p <;> simp_all [Promise.reject]

theorem resolve_eq_resolved {ε α : Type} (p : Promise ε α) (v a : α)
    (h : p.resolve v = .resolved a) : p = .resolved a ∨ a = v := by
  cases p <;> simp_all [Promise.resolve]

theorem head?_matchGroup1 (line : Str) (c : Char)
    (h : (matchGroup1 line).head? = some c) : isStarOrSpace c = false := by
  unfold matchGroup1 at h
  have hd := List.head?_dropWhile_not isStarOrSpace line
  cases hdl : line.dropWhile isStarOrSpace with
  | nil => simp [hdl] at h
  | cons x xs =>
    rw [hdl] at h hd
    simp only [List.head?_cons] at hd
    by_cases hx : isLineTerminator x = true
    · simp [List.takeWhile, hx] at h
    · simp [List.takeWhile, hx] at h
      rw [← h]; exact hd

theorem isWhiteSpace_false_of_isStarOrSpace_false (c : Char)
    (h : isStarOrSpace c = false) : isWhiteSpace c = false := by
  unfold isStarOrSpace at h
  simp only [Bool.or_eq_false_iff] at h
  exact h.2

theorem ne_star_of_isStarOrSpace_false (c : Char)
    (h : isStarOrSpace c = false) : c ≠ '*' := by
  unfold isStarOrSpace at h
  simp only [Bool.or_eq_false_iff, beq_eq_false_iff_ne, ne_eq] at h
  exact h.1

theorem head?_trim (m : Str) (hm : ∀ c, m.head? = some c → isWhiteSpace c = false)
    (hne : trim m ≠ []) : (trim m).head? = m.head? := by
  have hd : m.dropWhile isWhiteSpace = m := by
    cases m with
    | nil => rfl
    | cons x xs => simp [List.dropWhile, hm x rfl]
  unfold trim at hne ⊢
  rw [hd] at hne ⊢
  have hp : (m.reverse.dropWhile isWhiteSpace).reverse <+: m :=
    List.rdropWhile_prefix isWhiteSpace m
  obtain ⟨r, hr⟩ := hp
  conv_rhs => rw [← hr]
  exact (List.head?_append_of_ne_nil _ hne).symm

theorem cleanSegment_pushedBy (line : Str) :
    ∀ seg ∈ pushedBy line, cleanSegment seg = true := by
  intro seg hseg
  unfold pushedBy at hseg
  by_cases h1 : (matchGroup1 line).isEmpty = true
  · simp [h1] at hseg
  · by_cases h2 : (trim (matchGroup1 line)).isEmpty = true
    · simp [h1, h2] at hseg
    · simp only [h1, h2, Bool.false_eq_true, if_false, List.mem_singleton] at hseg
      subst hseg
      have hne : trim (matchGroup1 line) ≠ [] := by
        intro h0; apply h2; simp [h0]
      have hhead := head?_trim _ (fun d hd => isWhiteSpace_false_of_isStarOrSpace_false d
        (head?_matchGroup1 line d hd)) hne
      cases ht : trim (matchGroup1 line) with
      | nil => exact absurd ht hne
      | cons c rest =>
        rw [ht, List.head?_cons] at hhead
        simp [cleanSegment, head?_matchGroup1 line c hhead.symm]

theorem onLine_parsed (fp : Str) (s : Scanner) (line : Str) :
    (onLine fp s line).parsed = s.parsed ∨
      (onLine fp s line).parsed = s.parsed ++ pushedBy line := by
  unfold onLine pushedBy
  simp only []
  split_ifs <;> simp_all

theorem onLine_promise_resolved (fp : Str) (s : Scanner) (line text : Str)
    (h : (onLine fp s line).promise = .resolved text) :
    s.promise = .resolved text ∨ text = joinCRLF s.parsed := by
  unfold onLine at h
  simp only [] at h
  split_ifs at h <;>
    first
      | exact Or.inl h
      | exact Or.inl (reject_eq_resolved _ _ _ h)
      | exact (resolve_eq_resolved _ _ _ h).imp (fun h => h) (fun h => h)
      | exact (resolve_eq_resolved _ _ _ h).imp (reject_eq_resolved _ _ _) (fun h => h)

theorem wellFormed_onLine (fp : Str) (s : Scanner) (line : Str) (h : s.wellFormed) :
    (onLine fp s line).wellFormed := by
  refine ⟨?_, ?_⟩
  · intro seg hseg
    rcases onLine_parsed fp s line with hp | hp
    · rw [hp] at hseg; exact h.1 seg hseg
    · rw [hp, List.mem_append] at hseg
      rcases hseg with hs | hs
      · exact h.1 seg hs
      · exact cleanSegment_pushedBy line seg hs
  · intro text ht
    rcases onLine_promise_resolved fp s line text ht with hp | hp
    · exact h.2 text hp
    · exact ⟨s.parsed, hp, h.1⟩

theorem wellFormed_deliver (fp : Str) (s : Scanner) (ev : ReaderEvent) (h : s.wellFormed) :
    (deliver fp s ev).wellFormed := by
  cases ev with
  | line text =>
    unfold deliver
    by_cases hc : s.closed = true
    · simpa [hc] using h
    · simpa [hc] using wellFormed_onLine fp s text h
  | error code =>
    exact ⟨h.1, fun text ht => h.2 text (reject_eq_resolved _ _ _ ht)⟩
  | eof =>
    show (onEnd fp s).wellFormed
    unfold onEnd
    split_ifs
    · exact ⟨h.1, fun text ht => h.2 text (reject_eq_resolved _ _ _ ht)⟩
    · exact ⟨h.1, fun text ht => h.2 text (reject_eq_resolved _ _ _ ht)⟩
    · exact h

theorem wellFormed_foldl_deliver (fp : Str) (events : List ReaderEvent) (s : Scanner)
    (h : s.wellFormed) : (events.foldl (deliver fp) s).wellFormed := by
  induction events generalizing s with
  | nil => exact h
  | cons ev rest ih => exact ih _ (wellFormed_deliver fp s ev h)

theorem wellFormed_init : Scanner.init.wellFormed := by
  refine ⟨?_, ?_⟩
  · intro seg hseg; simp [Scanner.init] at hseg
  · intro text ht; simp [Scanner.init] at ht

theorem closesComment_of_cleanSegment (seg : Str) (h : cleanSegment seg = true) :
    closesComment seg = false := by
  cases seg with
  | nil => simp [cleanSegment] at h
  | cons c rest =>
    have hc : isStarOrSpace c = false := by simpa [cleanSegment] using h
    have hws := isWhiteSpace_false_of_isStarOrSpace_false c hc
    have hstar := ne_star_of_isStarOrSpace_false c hc
    unfold closesComment
    simp only [List.dropWhile, hws]
    split
    · next heq =>
      simp only [List.cons.injEq] at heq
      exact absurd heq.1 hstar
    · rfl

/-- C6 without its amendment fails: a body line is returned with the delimiters it holds. -/
theorem scanner_text_with_delimiters_counterexample :
    getFunctionHeaderComments "fnA.sqf".toList
        ["/*".toList, " * see /* this */ too".toList, " */".toList]
      = .resolved "see /* this */ too".toList ∧
    occursIn "/*".toList "see /* this */ too".toList = true ∧
    occursIn "*/".toList "see /* this */ too".toList = true := by
  decide

/-! ## Lines before the comment -/

/-- C7 (a defect of the code): three lines, none of the first two
opens a comment, and the first one matches the closing pattern.  The closing
test runs although no comment has started: the scanner resolves with the
empty text and closes the reader before line 3. -/
theorem scanner_close_before_open_three_lines :
    opensComment "*/".toList = false ∧ opensComment "a = 1;".toList = false ∧
    getFunctionHeaderComments "fnA.sqf".toList
        ["*/".toList, "a = 1;".toList, "b = 2;".toList]
      = .resolved [] := by
  decide

/-- C8 (a defect of the code): a file of the single line `*/`.  The
line handler resolves with the empty text; the rejection of the `end`
handler for fewer than two lines comes after the settlement. -/
theorem scanner_single_closing_line :
    getFunctionHeaderComments "fnA.sqf".toList ["*/".toList] = .resolved [] := by
  decide

/-- C9 (a defect of the code): line 1 is an include directive, the
comment opens on line 2.  Line 1 goes through the accumulating branch, so the
returned text starts with it. -/
theorem scanner_first_line_in_text :
    opensComment "#include \"script_component.hpp\"".toList = false ∧
    closesComment "#include \"script_component.hpp\"".toList = false ∧
    opensComment "/*".toList = true ∧
    closesComment " */".toList = true ∧
    getFunctionHeaderComments "fnA.sqf".toList
        ["#include \"script_component.hpp\"".toList, "/*".toList, " * Author: x".toList,
          " */".toList]
      = .resolved "#include \"script_component.hpp\"\r\nAuthor: x".toList := by
  decide

/-! ## The mapping of `read` -/

/-- C10 (a defect of the code): two addon folders, one of them named
`__proto__`.  The assignment `ret['__proto__'] = functions` sets the prototype
of the mapping and creates no key: the mapping has the single key `medical`. -/
theorem read_proto_folder_is_no_key :
    folderPrefix "/ace/addons/__proto__".toList = "__proto__".toList ∧
    folderPrefix "/ace/addons/medical".toList = "medical".toList ∧
    parseComponent noFunctionsFolder asciiLocaleCompare { onlyComments := false }
        "/ace/addons/__proto__".toList
      = .resolved { pfx := "__proto__".toList, functions := [] } ∧
    Promise.map JsObject.keys
        (read noFunctionsFolder asciiLocaleCompare
          ["/ace/addons/__proto__".toList, "/ace/addons/medical".toList]
          { onlyComments := false })
      = .resolved ["medical".toList] := by
  decide

/-! ## The mapping of `read` on ordinary folder names -/

theorem forall₂_of_allValues {ε α β : Type} (work : α → Promise ε β) :
    ∀ (l : List α) (vs : List β), allValues (l.map work) = some vs →
      List.Forall₂ (fun a v => work a = .resolved v) l vs := by
  intro l
  induction l with
  | nil => intro vs h; simp [allValues] at h; simp [h]
  | cons a rest ih =>
    intro vs h
    simp only [List.map_cons] at h
    cases hwa : work a with
    | pending => simp [hwa, allValues] at h
    | rejected e => simp [hwa, allValues] at h
    | resolved r =>
      simp only [hwa, allValues, Option.map_eq_some'] at h
      obtain ⟨ws, hws, rfl⟩ := h
      exact List.Forall₂.cons hwa (ih ws hws)

theorem pfx_of_parseComponent (fsys : FileSystem) (localeCompare : Str → Str → Int)
    (options : Options) (folderPath : Str) (r : FolderRecord)
    (h : parseComponent fsys localeCompare options folderPath = .resolved r) :
    r.pfx = folderPrefix folderPath := by
  unfold parseComponent at h
  obtain ⟨fns, _, hr⟩ := map_eq_resolved _ _ _ h
  simp [hr]

theorem pfx_of_readAllFolders (fsys : FileSystem) (localeCompare : Str → Str → Int)
    (folders : List Str) (options : Options) (data : List FolderRecord)
    (h : readAllFolders fsys localeCompare folders options = .resolved data) :
    data.map (fun r => r.pfx) = folders.map folderPrefix := by
  have h2 := forall₂_of_allValues _ _ _ (allValues_of_all_resolved _ _ h)
  clear h
  induction h2 with
  | nil => rfl
  | cons hav _ ih =>
    simp only [List.map_cons, ih, pfx_of_parseComponent _ _ _ _ _ hav]

theorem set_of_new_key {β : Type} (obj : JsObject β) (key : Str) (value : β)
    (hp : key ≠ protoKey) (hk : key ∉ obj.props.map Prod.fst) :
    obj.set key value = { obj with props := obj.props ++ [(key, value)] } := by
  have hany : obj.props.any (fun kv => kv.1 == key) = false := by
    rw [List.any_eq_false]
    intro kv hkv heq
    apply hk
    simp only [beq_iff_eq] at heq
    exact List.mem_map.mpr ⟨kv, hkv, heq⟩
  simp [JsObject.set, hp, hany]

theorem foldl_set_of_new_keys (recs : List FolderRecord) :
    ∀ (obj : JsObject (List ExtractedFunction)),
      (∀ r ∈ recs, r.pfx ≠ protoKey) →
      (obj.props.map Prod.fst ++ recs.map (fun r => r.pfx)).Nodup →
      recs.foldl (fun ret v => ret.set v.pfx v.functions) obj =
        { obj with props := obj.props ++ recs.map (fun v => (v.pfx, v.functions)) } := by
  induction recs with
  | nil => intro obj _ _; simp
  | cons r rest ih =>
    intro obj hp hnd
    have hk : r.pfx ∉ obj.props.map Prod.fst := by
      intro hmem
      exact (List.nodup_append.mp hnd).2.2 hmem (List.mem_cons_self _ _)
    rw [List.foldl_cons, set_of_new_key obj r.pfx r.functions (hp r (List.mem_cons_self _ _)) hk]
    rw [ih _ (fun x hx => hp x (List.mem_cons_of_mem _ hx))]
    · simp
    · simpa [List.map_append, List.append_assoc] using hnd

theorem keys_perm_props {β : Type} (obj : JsObject β) :
    obj.keys.Perm (obj.props.map Prod.fst) := by
  unfold JsObject.keys
  have hidx : ∀ l : List (Str × β),
      (l.filterMap (fun kv => (arrayIndex kv.1).map (fun n => (n, kv.1)))).map (fun nk => nk.2)
        = (l.filter (fun kv => (arrayIndex kv.1).isSome)).map Prod.fst := by
    intro l
    induction l with
    | nil => rfl
    | cons kv rest ih =>
      cases hai : arrayIndex kv.1 with
      | none => simp [List.filterMap_cons, List.filter_cons, hai, ih]
      | some n => simp [List.filterMap_cons, List.filter_cons, hai, ih]
  have h1 := ((List.perm_insertionSort (fun a b : Nat × Str => a.1 ≤ b.1)
    (obj.props.filterMap (fun kv => (arrayIndex kv.1).map (fun n => (n, kv.1))))).map
      (fun nk => nk.2))
  rw [hidx] at h1
  have h2 : ((obj.props.filter (fun kv => (arrayIndex kv.1).isSome)).map Prod.fst ++
      (obj.props.filter (fun kv => (arrayIndex kv.1).isNone)).map Prod.fst).Perm
      (obj.props.map Prod.fst) := by
    rw [← List.map_append]
    apply List.Perm.map
    have h3 := List.filter_append_perm (fun kv : Str × β => (arrayIndex kv.1).isSome) obj.props
    have h4 : (fun kv : Str × β => (arrayIndex kv.1).isNone)
        = (fun kv : Str × β => !(arrayIndex kv.1).isSome) := by
      funext kv; cases arrayIndex kv.1 <;> rfl
    rw [h4]
    simpa using h3
  exact (List.Perm.append_right _ h1).trans h2

theorem getOwn_of_mem {β : Type} (obj : JsObject β) (key : Str) (value : β)
    (hnd : (obj.props.map Prod.fst).Nodup) (hmem : (key, value) ∈ obj.props) :
    obj.getOwn key = some value := by
  unfold JsObject.getOwn
  generalize obj.props = props at hnd hmem
  induction props with
  | nil => simp at hmem
  | cons kv rest ih =>
    simp only [List.map_cons, List.nodup_cons] at hnd
    rcases List.mem_cons.mp hmem with h | h
    · subst h; simp [List.find?_cons]
    · have hne : kv.1 ≠ key := by
        intro heq
        apply hnd.1
        rw [heq]
        exact List.mem_map.mpr ⟨(key, value), h, rfl⟩
      have hb : (kv.1 == key) = false := by simpa using hne
      rw [List.find?_cons, hb]
      exact ih hnd.2 h

/-- What the code does for folder names other than `__proto__`: when all
folders resolve and their final path segments are pairwise distinct, the
mapping `read` returns has exactly these segments as keys, each once, and
each key maps to the functions resolved for its folder. -/
theorem read_mapping_of_plain_names (fsys : FileSystem) (localeCompare : Str → Str → Int)
    (folders : List Str) (options : Options) (data : List FolderRecord)
    (hne : folders ≠ [])
    (hall : readAllFolders fsys localeCompare folders options = .resolved data)
    (hnodup : (folders.map folderPrefix).Nodup)
    (hproto : ∀ f ∈ folders, folderPrefix f ≠ protoKey) :
    ∃ obj, read fsys localeCompare folders options = .resolved obj ∧
      obj.keys.Perm (folders.map folderPrefix) ∧
      data.map (fun r => r.pfx) = folders.map folderPrefix ∧
      ∀ r ∈ data, obj.getOwn r.pfx = some r.functions := by
  have hpfx := pfx_of_readAllFolders fsys localeCompare folders options data hall
  have hsort : (sortWith (fun a b : FolderRecord => localeCompare a.pfx b.pfx) data).Perm data :=
    List.perm_insertionSort _ _
  have hkeys : ((sortWith (fun a b : FolderRecord => localeCompare a.pfx b.pfx) data).map
      (fun r => r.pfx)).Perm (folders.map folderPrefix) := by
    rw [← hpfx]; exact hsort.map _
  have hnd : ((sortWith (fun a b : FolderRecord => localeCompare a.pfx b.pfx) data).map
      (fun r => r.pfx)).Nodup := hkeys.nodup_iff.mpr hnodup
  have hnp : ∀ r ∈ sortWith (fun a b : FolderRecord => localeCompare a.pfx b.pfx) data,
      r.pfx ≠ protoKey := by
    intro r hr
    have hm : r.pfx ∈ folders.map folderPrefix :=
      hkeys.mem_iff.mp (List.mem_map.mpr ⟨r, hr, rfl⟩)
    obtain ⟨f, hf, hfr⟩ := List.mem_map.mp hm
    rw [← hfr]; exact hproto f hf
  have hfold := foldl_set_of_new_keys _ JsObject.empty hnp (by simpa [JsObject.empty] using hnd)
  have hempty : folders.isEmpty = false := by
    cases folders with
    | nil => exact absurd rfl hne
    | cons _ _ => rfl
  refine ⟨JsObject.mk ((sortWith (fun a b : FolderRecord => localeCompare a.pfx b.pfx) data).map
      (fun v => (v.pfx, v.functions))) none, ?_, ?_, hpfx, ?_⟩
  · unfold read
    simp only [hempty, Bool.false_eq_true, if_false, hall, Promise.map]
    rw [hfold]
    simp [JsObject.empty]
  · refine (keys_perm_props _).trans ?_
    simpa [List.map_map, Function.comp_def] using hkeys
  · intro r hr
    apply getOwn_of_mem
    · simpa [List.map_map, Function.comp_def] using hnd
    · exact List.mem_map.mpr ⟨r, hsort.mem_iff.mpr hr, rfl⟩

/-! ## The order of the keys of the mapping -/

/-- C11 (a defect of the code): two addon folders named `9` and `10`.  The
locale comparison puts `10` before `9` and the properties are created in that
order, but an object lists its array-index keys first, in ascending numeric
order: the keys come out as `9`, `10`, not in the order of the sorted
prefixes.  On the names `zeus` and `medical` the keys are in sorted order. -/
theorem read_numeric_folder_names_key_order :
    folderPrefix "/ace/addons/9".toList = "9".toList ∧
    folderPrefix "/ace/addons/10".toList = "10".toList ∧
    asciiLocaleCompare "10".toList "9".toList < 0 ∧
    sortWith asciiLocaleCompare ["9".toList, "10".toList] = ["10".toList, "9".toList] ∧
    Promise.map JsObject.keys
        (read noFunctionsFolder asciiLocaleCompare
          ["/ace/addons/9".toList, "/ace/addons/10".toList] { onlyComments := false })
      = .resolved ["9".toList, "10".toList] ∧
    Promise.map JsObject.keys
        (read noFunctionsFolder asciiLocaleCompare
          ["/ace/addons/zeus".toList, "/ace/addons/medical".toList] { onlyComments := false })
      = .resolved ["medical".toList, "zeus".toList] := by
  decide

/-! ## Failures of the listing and of the file reads -/

/-- The promise the callback run leaves is the promise of `readFunctionFiles`. -/
theorem readFunctionFilesRun_promise (fsys : FileSystem) (localeCompare : Str → Str → Int)
    (dirFn pfx : Str) (options : Options) :
    (readFunctionFilesRun fsys localeCompare dirFn pfx options).promise
      = readFunctionFiles fsys localeCompare dirFn pfx options := by
  unfold readFunctionFilesRun readFunctionFiles readdirCallback
  cases hdir : fsys.readdir dirFn with
  | error code =>
    by_cases hc : code = ['E', 'N', 'O', 'E', 'N', 'T']
    · simp [hc, Promise.resolve]
    · simp [hc, Promise.reject]
  | ok files =>
    simp only []
    cases Promise.all
      (((functionFileNames localeCompare files).map (pathJoin dirFn)).map
        (fun v =>
          if options.onlyComments = true then getCommentsOn v (fsys.lineEvents v)
          else readFile fsys v)) <;>
      simp [Promise.settleFrom, Promise.map, Promise.resolve, Promise.reject]

/-- C12 (a defect of the code): the listing of the `functions` folder fails
with `EACCES`.  The promise is rejected with that error, but the callback does
not return after `reject(e)`: it goes on to `files.filter` on an undefined
listing and throws.  The branch for `ENOENT` next to it does return. -/
theorem readFunctionFiles_listing_error_falls_through :
    readFunctionFilesRun unreadableFunctionsFolder asciiLocaleCompare
        "/ace/addons/medical/functions".toList "medical".toList { onlyComments := false }
      = { promise := .rejected (Err.system "EACCES".toList), threw := true } ∧
    readFunctionFilesRun noFunctionsFolder asciiLocaleCompare
        "/ace/addons/medical/functions".toList "medical".toList { onlyComments := false }
      = { promise := .resolved [], threw := false } := by
  decide

theorem map_eq_rejected {ε α β : Type} (f : α → β) (p : Promise ε α) (e : ε)
    (h : Promise.map f p = .rejected e) : p = .rejected e := by
  cases p <;> simp_all [Promise.map]

theorem mem_of_firstRejection {ε α : Type} (ps : List (Promise ε α)) (e : ε)
    (h : firstRejection ps = some e) : Promise.rejected e ∈ ps := by
  induction ps with
  | nil => simp [firstRejection] at h
  | cons p rest ih =>
    cases p with
    | pending => exact List.mem_cons_of_mem _ (ih (by simpa [firstRejection] using h))
    | resolved a => exact List.mem_cons_of_mem _ (ih (by simpa [firstRejection] using h))
    | rejected e' =>
      simp only [firstRejection, Option.some.injEq] at h
      rw [h]; exact List.mem_cons_self _ _

theorem firstRejection_of_all_rejected {ε α : Type} (ps : List (Promise ε α)) (e : ε)
    (h : Promise.all ps = .rejected e) : firstRejection ps = some e := by
  unfold Promise.all at h
  cases hr : firstRejection ps with
  | some e' => simpa [hr] using h
  | none =>
    rw [hr] at h
    cases hv : allValues ps <;> simp [hv] at h

theorem all_eq_rejected_of_firstRejection {ε α : Type} (ps : List (Promise ε α)) (e : ε)
    (h : firstRejection ps = some e) : Promise.all ps = .rejected e := by
  simp [Promise.all, h]

/-- The function `getComments` never rejects, on any stream of reader events. -/
theorem getCommentsOn_ne_rejected (v : Str) (events : List ReaderEvent) (e : Err) :
    getCommentsOn v events ≠ .rejected e := by
  unfold getCommentsOn
  split <;> simp

/-- A rejection of `readFunctionFiles` carries an error of the platform. -/
theorem system_of_readFunctionFiles_rejected (fsys : FileSystem)
    (localeCompare : Str → Str → Int) (dirFn pfx : Str) (options : Options) (e : Err)
    (h : readFunctionFiles fsys localeCompare dirFn pfx options = .rejected e) :
    ∃ code, e = Err.system code := by
  unfold readFunctionFiles at h
  cases hdir : fsys.readdir dirFn with
  | error code =>
    rw [hdir] at h
    by_cases hc : code = ['E', 'N', 'O', 'E', 'N', 'T']
    · simp [hc] at h
    · simp only [hc, if_false, Promise.rejected.injEq] at h
      exact ⟨code, h.symm⟩
  | ok files =>
    rw [hdir] at h
    have hmem := mem_of_firstRejection _ _
      (firstRejection_of_all_rejected _ _ (map_eq_rejected _ _ _ h))
    obtain ⟨v, _, hv⟩ := List.mem_map.mp hmem
    by_cases hoc : options.onlyComments = true
    · simp only [hoc, if_true] at hv
      exact absurd hv (getCommentsOn_ne_rejected _ _ _)
    · simp only [hoc, if_false] at hv
      unfold readFile at hv
      cases hrf : fsys.readFile v with
      | error code => rw [hrf] at hv; exact ⟨code, by simpa using hv.symm⟩
      | ok text => rw [hrf] at hv; simp at hv

/-- What the code does with the promises on a failure: a listing error other
than `ENOENT` rejects `readFunctionFiles` and `parseComponent` with that
error, and `read` is rejected with the error of the first folder whose
promise is rejected. -/
theorem listing_error_rejects (fsys : FileSystem) (localeCompare : Str → Str → Int)
    (options : Options) :
    (∀ dirFn pfx code, fsys.readdir dirFn = .error code →
      code ≠ ['E', 'N', 'O', 'E', 'N', 'T'] →
      readFunctionFiles fsys localeCompare dirFn pfx options = .rejected (Err.system code)) ∧
    (∀ folderPath e,
      readFunctionFiles fsys localeCompare
          (pathJoin folderPath ['f', 'u', 'n', 'c', 't', 'i', 'o', 'n', 's'])
          (folderPrefix folderPath) options = .rejected e →
      parseComponent fsys localeCompare options folderPath = .rejected e) ∧
    (∀ folders e,
      firstRejection (folders.map (parseComponent fsys localeCompare options)) = some e →
      read fsys localeCompare folders options = .rejected e) := by
  refine ⟨?_, ?_, ?_⟩
  · intro dirFn pfx code hdir hc
    simp [readFunctionFiles, hdir, hc]
  · intro folderPath e h
    simp [parseComponent, h, Promise.map]
  · intro folders e h
    have hne : folders.isEmpty = false := by
      cases folders with
      | nil => simp [firstRejection] at h
      | cons _ _ => rfl
    simp [read, hne, readAllFolders, all_eq_rejected_of_firstRejection _ _ h, Promise.map]

/-! ## A missing `functions` folder -/

/-- C13: whenever the listing of the `functions` folder fails with `ENOENT`,
`readFunctionFiles` resolves with the empty sequence, in comment mode and in
full-content mode alike, its callback returns without throwing, and
`parseComponent` resolves with the record of the folder's prefix and no
function; nothing is rejected. -/
theorem missing_functions_folder_is_empty (fsys : FileSystem)
    (localeCompare : Str → Str → Int) (options : Options) :
    (∀ dirFn pfx, fsys.readdir dirFn = .error ['E', 'N', 'O', 'E', 'N', 'T'] →
      readFunctionFiles fsys localeCompare dirFn pfx options = .resolved [] ∧
      readFunctionFilesRun fsys localeCompare dirFn pfx options
        = { promise := .resolved [], threw := false }) ∧
    (∀ folderPath,
      fsys.readdir (pathJoin folderPath ['f', 'u', 'n', 'c', 't', 'i', 'o', 'n', 's'])
        = .error ['E', 'N', 'O', 'E', 'N', 'T'] →
      parseComponent fsys localeCompare options folderPath
        = .resolved { pfx := folderPrefix folderPath, functions := [] }) := by
  refine ⟨?_, ?_⟩
  · intro dirFn pfx hdir
    refine ⟨by simp [readFunctionFiles, hdir], ?_⟩
    simp [readFunctionFilesRun, readdirCallback, hdir, Promise.resolve]
  · intro folderPath hdir
    simp [parseComponent, readFunctionFiles, hdir, Promise.map]

/-- The theorem on a file system without any `functions` folder, in both modes. -/
theorem missing_functions_folder_is_empty_witness :
    noFunctionsFolder.readdir "/ace/addons/medical/functions".toList
      = .error "ENOENT".toList ∧
    readFunctionFiles noFunctionsFolder asciiLocaleCompare
        "/ace/addons/medical/functions".toList "medical".toList { onlyComments := true }
      = .resolved [] ∧
    readFunctionFiles noFunctionsFolder asciiLocaleCompare
        "/ace/addons/medical/functions".toList "medical".toList { onlyComments := false }
      = .resolved [] ∧
    parseComponent noFunctionsFolder asciiLocaleCompare { onlyComments := true }
        "/ace/addons/medical".toList
      = .resolved { pfx := folderPrefix "/ace/addons/medical".toList, functions := [] } :=
  ⟨rfl,
    ((missing_functions_folder_is_empty noFunctionsFolder asciiLocaleCompare
      { onlyComments := true }).1 _ _ rfl).1,
    ((missing_functions_folder_is_empty noFunctionsFolder asciiLocaleCompare
      { onlyComments := false }).1 _ _ rfl).1,
    (missing_functions_folder_is_empty noFunctionsFolder asciiLocaleCompare
      { onlyComments := true }).2 "/ace/addons/medical".toList rfl⟩

/-! ## No addon folder -/

/-- C14: with no folder found, `read` fails with the error for no addon
folders whatever the file system holds, so no folder is resolved and there is
no mapping; with at least one folder found, `read` never fails with that
error. -/
theorem read_no_addon_folders (fsys : FileSystem) (localeCompare : Str → Str → Int)
    (options : Options) :
    read fsys localeCompare [] options = .rejected Err.noAddonFolders ∧
    ∀ folders, folders ≠ [] →
      read fsys localeCompare folders options ≠ .rejected Err.noAddonFolders := by
  refine ⟨rfl, ?_⟩
  intro folders hne h
  have hempty : folders.isEmpty = false := by
    cases folders with
    | nil => exact absurd rfl hne
    | cons _ _ => rfl
  unfold read at h
  simp only [hempty, Bool.false_eq_true, if_false] at h
  have hmem := mem_of_firstRejection _ _
    (firstRejection_of_all_rejected _ _ (map_eq_rejected _ _ _ h))
  obtain ⟨f, _, hf⟩ := List.mem_map.mp hmem
  unfold parseComponent at hf
  obtain ⟨code, hcode⟩ := system_of_readFunctionFiles_rejected _ _ _ _ _ _
    (map_eq_rejected _ _ _ hf)
  cases hcode

/-- The theorem on a file system whose `functions` folders cannot be listed:
with one folder found `read` fails, but with the error of the listing. -/
theorem read_no_addon_folders_witness :
    read unreadableFunctionsFolder asciiLocaleCompare [] { onlyComments := false }
      = .rejected Err.noAddonFolders ∧
    read unreadableFunctionsFolder asciiLocaleCompare ["/ace/addons/medical".toList]
        { onlyComments := false }
      = .rejected (Err.system "EACCES".toList) ∧
    read unreadableFunctionsFolder asciiLocaleCompare ["/ace/addons/medical".toList]
        { onlyComments := false }
      ≠ .rejected Err.noAddonFolders :=
  ⟨(read_no_addon_folders unreadableFunctionsFolder asciiLocaleCompare
      { onlyComments := false }).1,
    by decide,
    (read_no_addon_folders unreadableFunctionsFolder asciiLocaleCompare
      { onlyComments := false }).2 ["/ace/addons/medical".toList] (by simp)⟩

/-! ## The filter on the directory entries -/

theorem toLower_cases (c : Char) :
    ((c.toNat < 65 ∨ 90 < c.toNat) ∧ c.toLower = c) ∨
      ∃ k, 65 ≤ k ∧ k ≤ 90 ∧ c = Char.ofNat k ∧ c.toLower = Char.ofNat (k + 32) := by
  by_cases h : c.toNat ≥ 65 ∧ c.toNat ≤ 90
  · right
    refine ⟨c.toNat, h.1, h.2, (Char.ofNat_toNat c).symm, ?_⟩
    simp [Char.toLower, h]
  · left
    refine ⟨by omega, ?_⟩
    simp only [Char.toLower]
    rw [if_neg h]

theorem eqIgnoreCase_dot (c : Char) : eqIgnoreCase c '.' = (c == '.') := by
  unfold eqIgnoreCase
  rcases toLower_cases c with ⟨_, h⟩ | ⟨k, h1, h2, rfl, h⟩
  · rw [h]; rfl
  · rw [h]; interval_cases k <;> decide

theorem eqIgnoreCase_f (c : Char) : eqIgnoreCase c 'f' = anyCaseOf 'f' 'F' c := by
  unfold eqIgnoreCase anyCaseOf
  rcases toLower_cases c with ⟨hr, h⟩ | ⟨k, h1, h2, rfl, h⟩
  · rw [h]
    have hne : (c == 'F') = false := by
      rw [beq_eq_false_iff_ne]; rintro rfl; revert hr; decide
    simp [hne]
  · rw [h]; interval_cases k <;> decide

theorem eqIgnoreCase_n (c : Char) : eqIgnoreCase c 'n' = anyCaseOf 'n' 'N' c := by
  unfold eqIgnoreCase anyCaseOf
  rcases toLower_cases c with ⟨hr, h⟩ | ⟨k, h1, h2, rfl, h⟩
  · rw [h]
    have hne : (c == 'N') = false := by
      rw [beq_eq_false_iff_ne]; rintro rfl; revert hr; decide
    simp [hne]
  · rw [h]; interval_cases k <;> decide

theorem eqIgnoreCase_s (c : Char) : eqIgnoreCase c 's' = anyCaseOf 's' 'S' c := by
  unfold eqIgnoreCase anyCaseOf
  rcases toLower_cases c with ⟨hr, h⟩ | ⟨k, h1, h2, rfl, h⟩
  · rw [h]
    have hne : (c == 'S') = false := by
      rw [beq_eq_false_iff_ne]; rintro rfl; revert hr; decide
    simp [hne]
  · rw [h]; interval_cases k <;> decide

theorem eqIgnoreCase_q (c : Char) : eqIgnoreCase c 'q' = anyCaseOf 'q' 'Q' c := by
  unfold eqIgnoreCase anyCaseOf
  rcases toLower_cases c with ⟨hr, h⟩ | ⟨k, h1, h2, rfl, h⟩
  · rw [h]
    have hne : (c == 'Q') = false := by
      rw [beq_eq_false_iff_ne]; rintro rfl; revert hr; decide
    simp [hne]
  · rw [h]; interval_cases k <;> decide

theorem isDotSqf_eq_anyCase (ext : Str) : isDotSqf ext = isDotSqfAnyCase ext := by
  unfold isDotSqf isDotSqfAnyCase
  split
  · simp only [eqIgnoreCase_dot, eqIgnoreCase_s, eqIgnoreCase_q, eqIgnoreCase_f]
  · rfl

theorem length_of_isDotSqf (ext : Str) (h : isDotSqf ext = true) : ext.length = 4 := by
  unfold isDotSqf at h
  split at h
  · rfl
  · simp at h

theorem matchesDotStarSqf_eq (l : Str) (h : lineBreakFree l) :
    matchesDotStarSqf l = isDotSqf (l.drop (l.length - 4)) := by
  induction l with
  | nil => rfl
  | cons c t ih =>
    have hc : isLineTerminator c = false := h c (List.mem_cons_self _ _)
    have iht := ih (fun d hd => h d (List.mem_cons_of_mem _ hd))
    simp only [matchesDotStarSqf, hc, Bool.not_false, Bool.true_and, iht]
    rcases Nat.lt_trichotomy t.length 3 with hlt | heq | hgt
    · have h1 : (c :: t).length - 4 = 0 := by simp; omega
      have h2 : t.length - 4 = 0 := by omega
      rw [h1, h2, List.drop_zero, List.drop_zero]
      have f1 : isDotSqf (c :: t) = false := by
        cases hd : isDotSqf (c :: t) with
        | false => rfl
        | true => have := length_of_isDotSqf _ hd; simp at this; omega
      have f2 : isDotSqf t = false := by
        cases hd : isDotSqf t with
        | false => rfl
        | true => have := length_of_isDotSqf _ hd; omega
      simp [f1, f2]
    · have h1 : (c :: t).length - 4 = 0 := by simp; omega
      have h2 : t.length - 4 = 0 := by omega
      rw [h1, h2, List.drop_zero, List.drop_zero]
      have f2 : isDotSqf t = false := by
        cases hd : isDotSqf t with
        | false => rfl
        | true => have := length_of_isDotSqf _ hd; omega
      simp [f2]
    · have h1 : (c :: t).length - 4 = (t.length - 4) + 1 := by simp; omega
      rw [h1, List.drop_succ_cons]
      have f1 : isDotSqf (c :: t) = false := by
        cases hd : isDotSqf (c :: t) with
        | false => rfl
        | true => have := length_of_isDotSqf _ hd; simp at this; omega
      simp [f1]

/-- On a name without line terminators the pattern of the filter and the
specification's wording agree. -/
theorem isFunctionFile_eq_acceptedBySpec (v : Str) (h : lineBreakFree v) :
    isFunctionFile v = acceptedBySpec v := by
  unfold isFunctionFile acceptedBySpec
  match v, h with
  | [], _ => rfl
  | [_], _ => rfl
  | c0 :: c1 :: rest, h =>
    have hrest : lineBreakFree rest := fun d hd =>
      h d (List.mem_cons_of_mem _ (List.mem_cons_of_mem _ hd))
    simp only [eqIgnoreCase_f, eqIgnoreCase_n, matchesDotStarSqf_eq rest hrest,
      isDotSqf_eq_anyCase]

/-- The names of the output of `readFunctionFiles` follow the file names it
works on. -/
theorem names_of_readFunctionFiles (fsys : FileSystem) (localeCompare : Str → Str → Int)
    (dirFn pfx : Str) (options : Options) (files : List Str)
    (out : List ExtractedFunction)
    (hdir : fsys.readdir dirFn = .ok files)
    (hout : readFunctionFiles fsys localeCompare dirFn pfx options = .resolved out) :
    out.map (fun f => f.name) =
      (functionFileNames localeCompare files).map
        (fun v => functionName pfx (pathJoin dirFn v)) := by
  unfold readFunctionFiles at hout
  simp only [hdir] at hout
  obtain ⟨vs, hall, rfl⟩ := map_eq_resolved _ _ _ hout
  have hvals := allValues_of_all_resolved _ _ hall
  have hpaths := filePath_of_allValues
    (fun v => if options.onlyComments = true then getCommentsOn v (fsys.lineEvents v)
      else readFile fsys v)
    (fun v r hr => by
      by_cases hoc : options.onlyComments = true
      · simp only [hoc, if_true] at hr
        exact filePath_getCommentsOn v _ r hr
      · simp only [hoc, if_false] at hr
        exact filePath_readFile fsys v r hr)
    _ vs hvals
  have hname : (vs.map (toExtractedFunction pfx)).map (fun f => f.name) =
      (vs.map (fun r => r.filePath)).map (functionName pfx) := by
    simp [List.map_map, toExtractedFunction, Function.comp_def]
  rw [hname, hpaths, List.map_map]
  rfl

/-- C15: for every listing whose entry names hold no line break, an entry is
kept by the filter iff its first two characters are `fn` in any letter case
and what follows them ends with `.sqf` in any letter case; the file names
`readFunctionFiles` works on are exactly the kept entries, and its output has
one element per kept entry and none for any other entry. -/
theorem filter_keeps_fn_sqf_entries (files : List Str)
    (hfiles : ∀ v ∈ files, lineBreakFree v) :
    (∀ v ∈ files, isFunctionFile v = true ↔ acceptedBySpec v = true) ∧
    (∀ (localeCompare : Str → Str → Int) (v : Str),
      v ∈ functionFileNames localeCompare files ↔ v ∈ files ∧ acceptedBySpec v = true) ∧
    (∀ (fsys : FileSystem) (localeCompare : Str → Str → Int) (dirFn pfx : Str)
      (options : Options) (out : List ExtractedFunction),
      fsys.readdir dirFn = .ok files →
      readFunctionFiles fsys localeCompare dirFn pfx options = .resolved out →
      out.length = (files.filter acceptedBySpec).length ∧
      out.map (fun f => f.name) =
        (sortWith localeCompare (files.filter acceptedBySpec)).map
          (fun v => functionName pfx (pathJoin dirFn v))) := by
  have hfilter : files.filter isFunctionFile = files.filter acceptedBySpec :=
    List.filter_congr (fun v hv => isFunctionFile_eq_acceptedBySpec v (hfiles v hv))
  refine ⟨?_, ?_, ?_⟩
  · intro v hv
    rw [isFunctionFile_eq_acceptedBySpec v (hfiles v hv)]
  · intro localeCompare v
    unfold functionFileNames sortWith
    rw [(List.perm_insertionSort _ _).mem_iff, hfilter, List.mem_filter]
  · intro fsys localeCompare dirFn pfx options out hdir hout
    have hnames := names_of_readFunctionFiles fsys localeCompare dirFn pfx options files out
      hdir hout
    unfold functionFileNames at hnames
    rw [hfilter] at hnames
    refine ⟨?_, hnames⟩
    have hlen := congrArg List.length hnames
    simp only [List.length_map] at hlen
    rw [hlen]
    exact (List.perm_insertionSort _ _).length_eq

/-- The theorem on a listing of five entries, two of which are kept. -/
theorem filter_keeps_fn_sqf_entries_witness :
    ["fnB.sqf".toList, "readme.txt".toList, "FNa.SqF".toList, "fn.sq".toList,
        "xfnA.sqf".toList].filter acceptedBySpec
      = ["fnB.sqf".toList, "FNa.SqF".toList] ∧
    (∀ v ∈ ["fnB.sqf".toList, "readme.txt".toList, "FNa.SqF".toList, "fn.sq".toList,
        "xfnA.sqf".toList], isFunctionFile v = true ↔ acceptedBySpec v = true) ∧
    (∀ (localeCompare : Str → Str → Int) (v : Str),
      v ∈ functionFileNames localeCompare
          ["fnB.sqf".toList, "readme.txt".toList, "FNa.SqF".toList, "fn.sq".toList,
            "xfnA.sqf".toList] ↔
        v ∈ ["fnB.sqf".toList, "readme.txt".toList, "FNa.SqF".toList, "fn.sq".toList,
            "xfnA.sqf".toList] ∧ acceptedBySpec v = true) :=
  have h := filter_keeps_fn_sqf_entries
    ["fnB.sqf".toList, "readme.txt".toList, "FNa.SqF".toList, "fn.sq".toList,
      "xfnA.sqf".toList] (by decide)
  ⟨by decide, h.1, h.2.1⟩

/-! ## Full-content mode -/

theorem all_map_resolved {ε α β : Type} (work : α → Promise ε β) (g : α → β) :
    ∀ l : List α, (∀ a ∈ l, work a = .resolved (g a)) →
      Promise.all (l.map work) = .resolved (l.map g) := by
  have hfirst : ∀ l : List α, (∀ a ∈ l, work a = .resolved (g a)) →
      firstRejection (l.map work) = none := by
    intro l
    induction l with
    | nil => intro _; rfl
    | cons a rest ih =>
      intro h
      simp only [List.map_cons, h a (List.mem_cons_self _ _), firstRejection]
      exact ih (fun x hx => h x (List.mem_cons_of_mem _ hx))
  have hvals : ∀ l : List α, (∀ a ∈ l, work a = .resolved (g a)) →
      allValues (l.map work) = some (l.map g) := by
    intro l
    induction l with
    | nil => intro _; rfl
    | cons a rest ih =>
      intro h
      simp only [List.map_cons, h a (List.mem_cons_self _ _), allValues,
        ih (fun x hx => h x (List.mem_cons_of_mem _ hx)), Option.map_some']
  intro l h
  simp [Promise.all, hfirst l h, hvals l h]

/-- C16: in full-content mode, for every listing that succeeds and every
assignment of contents to the accepted files, all of them readable, the
promise resolves with exactly one element per accepted file name; the element
at each position carries the name derived from the file at that position of
the sorted file names, and the full text of that same file, unchanged. -/
theorem readFunctionFiles_full_content (fsys : FileSystem)
    (localeCompare : Str → Str → Int) (dirFn pfx : Str) (files : List Str)
    (content : Str → Str)
    (hdir : fsys.readdir dirFn = .ok files)
    (hread : ∀ v ∈ files, isFunctionFile v = true →
      fsys.readFile (pathJoin dirFn v) = .ok (content v)) :
    readFunctionFiles fsys localeCompare dirFn pfx { onlyComments := false }
      = .resolved ((functionFileNames localeCompare files).map
          (fun v => { name := functionName pfx (pathJoin dirFn v), text := content v })) ∧
    ((functionFileNames localeCompare files).map
        (fun v => ({ name := functionName pfx (pathJoin dirFn v), text := content v } :
          ExtractedFunction))).length
      = (files.filter isFunctionFile).length := by
  have hperm : (functionFileNames localeCompare files).Perm (files.filter isFunctionFile) :=
    List.perm_insertionSort _ _
  refine ⟨?_, ?_⟩
  · unfold readFunctionFiles
    simp only [hdir, Bool.false_eq_true, if_false, List.map_map]
    have hall := all_map_resolved (ε := Err)
      ((fun v => readFile fsys v) ∘ pathJoin dirFn)
      (fun v => ({ filePath := pathJoin dirFn v, text := content v } : FileText))
      (functionFileNames localeCompare files) (by
        intro v hv
        have hv' := List.mem_filter.mp (hperm.mem_iff.mp hv)
        simp [readFile, hread v hv'.1 hv'.2])
    rw [hall]
    simp [Promise.map, toExtractedFunction, Function.comp_def]
  · rw [List.length_map]
    exact hperm.length_eq

/-- The theorem on a folder of three entries, two of them function files, each
file holding its own path as text. -/
theorem readFunctionFiles_full_content_witness :
    readFunctionFiles (folderListing ["fnB.sqf".toList, "readme.txt".toList, "fna.sqf".toList])
        asciiLocaleCompare "/ace/addons/medical/functions".toList "medical".toList
        { onlyComments := false }
      = .resolved
          ((functionFileNames asciiLocaleCompare
              ["fnB.sqf".toList, "readme.txt".toList, "fna.sqf".toList]).map
            (fun v =>
              { name := functionName "medical".toList
                  (pathJoin "/ace/addons/medical/functions".toList v),
                text := pathJoin "/ace/addons/medical/functions".toList v })) ∧
    (functionFileNames asciiLocaleCompare
        ["fnB.sqf".toList, "readme.txt".toList, "fna.sqf".toList]).map
      (fun v =>
        ({ name := functionName "medical".toList
            (pathJoin "/ace/addons/medical/functions".toList v),
           text := pathJoin "/ace/addons/medical/functions".toList v } : ExtractedFunction))
      = [{ name := "ACE_medical_fna".toList,
           text := "/ace/addons/medical/functions/fna.sqf".toList },
         { name := "ACE_medical_fnB".toList,
           text := "/ace/addons/medical/functions/fnB.sqf".toList }] :=
  ⟨(readFunctionFiles_full_content
      (folderListing ["fnB.sqf".toList, "readme.txt".toList, "fna.sqf".toList])
      asciiLocaleCompare "/ace/addons/medical/functions".toList "medical".toList
      ["fnB.sqf".toList, "readme.txt".toList, "fna.sqf".toList]
      (fun v => pathJoin "/ace/addons/medical/functions".toList v)
      rfl (fun _ _ _ => rfl)).1,
    by decide⟩

/-! ## The scanner on any sequence of lines -/

theorem opensComment_of_closesComment (line : Str) (h : closesComment line = true) :
    opensComment line = false := by
  unfold closesComment at h
  unfold opensComment
  split at h
  · next rest heq => rw [heq]; rfl
  · simp at h

/-- A line that does not match the closing pattern, in any state. -/
theorem onLine_not_closing (fp : Str) (s : Scanner) (line : Str)
    (hc : closesComment line = false) :
    onLine fp s line =
      { parsed := if (!s.startParse && opensComment line) = true then s.parsed
          else s.parsed ++ pushedBy line,
        linesRead := s.linesRead + 1,
        startParse := s.startParse || opensComment line,
        closed := s.closed,
        promise := if (!s.startParse && decide (3 ≤ s.linesRead + 1)) = true then
            s.promise.reject (Err.missingDocumentation fp)
          else s.promise } := by
  unfold onLine pushedBy
  simp only [hc, Bool.false_eq_true, if_false]
  cases hs : s.startParse <;> cases ho : opensComment line <;>
    by_cases h3 : 3 ≤ s.linesRead + 1 <;>
    by_cases h1 : (matchGroup1 line).isEmpty = true <;>
    by_cases h2 : (trim (matchGroup1 line)).isEmpty = true <;>
    simp [hs, ho, h3, h1, h2]

/-- A line that matches the closing pattern, in any state of an open reader:
what happens to the promise. -/
theorem onLine_closing (fp : Str) (s : Scanner) (line : Str)
    (hc : closesComment line = true) :
    (onLine fp s line).promise =
      (if (!s.startParse && decide (3 ≤ s.linesRead + 1)) = true then
          s.promise.reject (Err.missingDocumentation fp)
        else s.promise).resolve (joinCRLF s.parsed) := by
  have ho := opensComment_of_closesComment line hc
  unfold onLine
  simp only [hc, ho, if_true, Bool.and_false, Bool.false_eq_true, if_false]
  cases hs : s.startParse <;>
    by_cases h3 : 3 ≤ s.linesRead + 1 <;>
    by_cases h1 : (matchGroup1 line).isEmpty = true <;>
    by_cases h2 : (trim (matchGroup1 line)).isEmpty = true <;>
    simp [hs, h3, h1, h2]

theorem promise_deliver_of_resolved (fp : Str) (s : Scanner) (ev : ReaderEvent) (text : Str)
    (h : s.promise = .resolved text) : (deliver fp s ev).promise = .resolved text := by
  cases ev with
  | line l =>
    show (if s.closed = true then s else onLine fp s l).promise = .resolved text
    by_cases hc : s.closed = true
    · simpa [hc] using h
    · simp only [hc, if_false]
      unfold onLine
      simp only []
      split_ifs <;> simp [h, Promise.reject, Promise.resolve]
  | error code => simp [deliver, onError, h, Promise.reject]
  | eof => exact onEnd_promise_of_resolved fp s text h

theorem promise_foldl_deliver_of_resolved (fp : Str) (events : List ReaderEvent) (s : Scanner)
    (text : Str) (h : s.promise = .resolved text) :
    (events.foldl (deliver fp) s).promise = .resolved text := by
  induction events generalizing s with
  | nil => exact h
  | cons ev rest ih => exact ih _ (promise_deliver_of_resolved fp s ev text h)

theorem any_of_any_take {α : Type} (p : α → Bool) (l : List α) (n : Nat)
    (h : (l.take n).any p = true) : l.any p = true := by
  rw [List.any_eq_true] at h ⊢
  obtain ⟨x, hx, hpx⟩ := h
  exact ⟨x, List.mem_of_mem_take hx, hpx⟩

theorem promise_after_line (e : Err) (pre : List Str) (l : Str) :
    (if (!(pre.any opensComment) && decide (3 ≤ pre.length + 1)) = true then
        (if 3 ≤ pre.length ∧ (pre.take 2).any opensComment = false then
            (Promise.rejected e : Promise Err Str) else .pending).reject e
      else
        (if 3 ≤ pre.length ∧ (pre.take 2).any opensComment = false then
            (Promise.rejected e : Promise Err Str) else .pending))
      = if 3 ≤ (pre ++ [l]).length ∧ ((pre ++ [l]).take 2).any opensComment = false then
          .rejected e else .pending := by
  rw [List.length_append, List.length_singleton]
  by_cases hlen : 2 ≤ pre.length
  · have htake : (pre ++ [l]).take 2 = pre.take 2 := List.take_append_of_le_length hlen
    have h3 : 3 ≤ pre.length + 1 := by omega
    rw [htake]
    cases ht : (pre.take 2).any opensComment with
    | true =>
      have hany := any_of_any_take _ _ _ ht
      simp [hany]
    | false =>
      cases hany : pre.any opensComment with
      | false =>
        by_cases hA : 3 ≤ pre.length <;> simp [h3, hA, Promise.reject]
      | true =>
        have hA : 3 ≤ pre.length := by
          by_contra hcon
          have h2 : pre.length = 2 := by omega
          have : pre.take 2 = pre := List.take_of_length_le (by omega)
          rw [this, hany] at ht
          exact absurd ht (by simp)
        simp [h3, hA]
  · have h3 : ¬ 3 ≤ pre.length + 1 := by omega
    have hA : ¬ 3 ≤ pre.length := by omega
    simp [h3, hA]

theorem parsed_after_line (pre : List Str) (l : Str) :
    (if (!(pre.any opensComment) && opensComment l) = true then
        ((pre.eraseP opensComment).map pushedBy).flatten
      else ((pre.eraseP opensComment).map pushedBy).flatten ++ pushedBy l)
      = (((pre ++ [l]).eraseP opensComment).map pushedBy).flatten := by
  cases hany : pre.any opensComment with
  | true =>
    obtain ⟨a, ha, hpa⟩ := List.any_eq_true.mp hany
    rw [List.eraseP_append_left hpa [l] ha]
    simp
  | false =>
    have hnone : ∀ b ∈ pre, ¬ opensComment b = true := by
      intro b hb hpb
      have : pre.any opensComment = true := List.any_eq_true.mpr ⟨b, hb, hpb⟩
      rw [hany] at this
      exact absurd this (by simp)
    rw [List.eraseP_append_right [l] hnone, List.eraseP_of_forall_not hnone]
    cases ho : opensComment l with
    | true => simp [List.eraseP_cons, ho]
    | false => simp [List.eraseP_cons, ho]

/-- The state after the lines before the first closing line. -/
theorem scan_lines_before_close (fp : Str) (pre : List Str)
    (hpre : ∀ l ∈ pre, closesComment l = false) :
    (pre.map ReaderEvent.line).foldl (deliver fp) Scanner.init =
      { parsed := ((pre.eraseP opensComment).map pushedBy).flatten,
        linesRead := pre.length,
        startParse := pre.any opensComment,
        closed := false,
        promise := if 3 ≤ pre.length ∧ (pre.take 2).any opensComment = false then
            .rejected (Err.missingDocumentation fp) else .pending } := by
  induction pre using List.reverseRecOn with
  | nil => simp [Scanner.init]
  | append_singleton pre l ih =>
    have hpre' : ∀ x ∈ pre, closesComment x = false :=
      fun x hx => hpre x (List.mem_append_left _ hx)
    have hl : closesComment l = false := hpre l (by simp)
    rw [List.map_append, List.foldl_append, ih hpre']
    simp only [List.map_cons, List.map_nil, List.foldl_cons, List.foldl_nil, deliver,
      Bool.false_eq_true, if_false]
    rw [onLine_not_closing fp _ l hl]
    simp only [Scanner.mk.injEq]
    refine ⟨parsed_after_line pre l, by simp, by simp [List.any_append], trivial, ?_⟩
    exact promise_after_line (Err.missingDocumentation fp) pre l

/-- The scanner on lines with a first closing line: the promise is resolved
with the text gathered before that line when the line is one of the first two
or a comment opened on line 1 or 2, and rejected otherwise; the lines after it
play no part. -/
theorem scan_with_close (fp : Str) (pre : List Str) (closeLine : Str) (post : List Str)
    (hpre : ∀ l ∈ pre, closesComment l = false) (hc : closesComment closeLine = true) :
    getFunctionHeaderComments fp (pre ++ closeLine :: post) =
      if pre.length < 2 ∨ (pre.take 2).any opensComment = true then
        .resolved (joinCRLF ((pre.eraseP opensComment).map pushedBy).flatten)
      else .rejected (Err.missingDocumentation fp) := by
  unfold getFunctionHeaderComments scanEvents
  rw [List.map_append, List.map_cons, List.append_assoc, List.foldl_append,
    scan_lines_before_close fp pre hpre]
  rw [List.cons_append, List.foldl_cons]
  have hp := onLine_closing fp
    { parsed := ((pre.eraseP opensComment).map pushedBy).flatten,
      linesRead := pre.length,
      startParse := pre.any opensComment,
      closed := false,
      promise := if 3 ≤ pre.length ∧ (pre.take 2).any opensComment = false then
          .rejected (Err.missingDocumentation fp) else .pending } closeLine hc
  simp only [deliver, Bool.false_eq_true, if_false]
  by_cases hcond : pre.length < 2 ∨ (pre.take 2).any opensComment = true
  · rw [if_pos hcond]
    apply promise_foldl_deliver_of_resolved
    rw [hp]
    rcases hcond with hlt | ht
    · have h3 : ¬ 3 ≤ pre.length + 1 := by omega
      have hA : ¬ 3 ≤ pre.length := by omega
      simp [h3, hA, Promise.resolve]
    · have hany := any_of_any_take _ _ _ ht
      simp [hany, ht, Promise.resolve]
  · rw [if_neg hcond]
    apply promise_foldl_deliver_of_rejected
    rw [hp]
    have hlen : 2 ≤ pre.length := by
      by_contra hcon; exact hcond (Or.inl (by omega))
    have ht : (pre.take 2).any opensComment = false := by
      cases h : (pre.take 2).any opensComment with
      | false => rfl
      | true => exact absurd (Or.inr h) hcond
    have h3 : 3 ≤ pre.length + 1 := by omega
    cases hany : pre.any opensComment with
    | false =>
      by_cases hA : 3 ≤ pre.length <;> simp [h3, hA, ht, Promise.reject, Promise.resolve]
    | true =>
      have hA : 3 ≤ pre.length := by
        by_contra hcon
        have : pre.take 2 = pre := List.take_of_length_le (by omega)
        rw [this, hany] at ht
        exact absurd ht (by simp)
      simp [hA, ht, Promise.resolve]

theorem onEnd_promise_ne_resolved (fp : Str) (s : Scanner) (text : Str)
    (h : s.promise ≠ .resolved text) : (onEnd fp s).promise ≠ .resolved text := by
  unfold onEnd
  split_ifs
  · exact fun hres => h (reject_eq_resolved _ _ _ hres)
  · exact fun hres => h (reject_eq_resolved _ _ _ hres)
  · exact h

/-- Without a closing line the promise is never resolved. -/
theorem scan_without_close (fp : Str) (lines : List Str)
    (h : ∀ l ∈ lines, closesComment l = false) (text : Str) :
    getFunctionHeaderComments fp lines ≠ .resolved text := by
  unfold getFunctionHeaderComments scanEvents
  rw [List.foldl_append, scan_lines_before_close fp lines h]
  simp only [List.foldl_cons, List.foldl_nil, deliver]
  apply onEnd_promise_ne_resolved
  show (if 3 ≤ lines.length ∧ (lines.take 2).any opensComment = false then
      (Promise.rejected (Err.missingDocumentation fp) : Promise Err Str)
      else .pending) ≠ .resolved text
  split_ifs <;> simp

theorem exists_first_close (lines : List Str) :
    (∀ l ∈ lines, closesComment l = false) ∨
      ∃ pre closeLine post, lines = pre ++ closeLine :: post ∧
        (∀ l ∈ pre, closesComment l = false) ∧ closesComment closeLine = true := by
  induction lines with
  | nil => left; simp
  | cons a t ih =>
    cases ha : closesComment a with
    | true => exact Or.inr ⟨[], a, t, rfl, by simp, ha⟩
    | false =>
      rcases ih with hall | ⟨pre, c, post, ht, hpre, hc⟩
      · left
        intro l hl
        rcases List.mem_cons.mp hl with rfl | hl
        · exact ha
        · exact hall l hl
      · right
        refine ⟨a :: pre, c, post, by simp [ht], ?_, hc⟩
        intro l hl
        rcases List.mem_cons.mp hl with rfl | hl
        · exact ha
        · exact hpre l hl

/-- The form of every text the scanner resolves with. -/
theorem resolved_text_form (fp : Str) (lines : List Str) (text : Str)
    (h : getFunctionHeaderComments fp lines = .resolved text) :
    ∃ pre closeLine post, lines = pre ++ closeLine :: post ∧
      (∀ l ∈ pre, closesComment l = false) ∧ closesComment closeLine = true ∧
      (pre.length < 2 ∨ (pre.take 2).any opensComment = true) ∧
      text = joinCRLF ((pre.eraseP opensComment).map pushedBy).flatten := by
  rcases exists_first_close lines with hall | ⟨pre, c, post, hl, hpre, hc⟩
  · exact absurd h (scan_without_close fp lines hall text)
  · refine ⟨pre, c, post, hl, hpre, hc, ?_⟩
    rw [hl, scan_with_close fp pre c post hpre hc] at h
    by_cases hcond : pre.length < 2 ∨ (pre.take 2).any opensComment = true
    · rw [if_pos hcond] at h
      exact ⟨hcond, by simpa using h.symm⟩
    · rw [if_neg hcond] at h
      simp at h

theorem textBeforeClose_eq (pre : List Str) (hlb : ∀ l ∈ pre, lineBreakFree l) :
    joinCRLF ((pre.eraseP opensComment).map pushedBy).flatten = textBeforeClose pre := by
  unfold textBeforeClose
  rw [join_pushedBy_eq_strippedBody _
    (fun b hb => hlb b ((List.eraseP_sublist pre).subset hb))]

theorem opens_on_line_1_or_2 (pre : List Str) (closeLine : Str) (post : List Str) :
    (pre.length + 1 ≤ 2 ∨ ((pre ++ closeLine :: post).take 2).any opensComment = true) ↔
      (pre.length < 2 ∨ (pre.take 2).any opensComment = true) := by
  by_cases hlen : 2 ≤ pre.length
  · rw [List.take_append_of_le_length hlen]
    constructor
    · rintro (h | h)
      · omega
      · exact Or.inr h
    · rintro (h | h)
      · omega
      · exact Or.inr h
  · constructor
    · intro _; exact Or.inl (by omega)
    · intro _; exact Or.inl (by omega)

/-- C17: on lines without line breaks the scanner resolves iff some line
matches the closing pattern and, with `k` the position of the first such line
(one more than the number of lines before it), `k ≤ 2` or one of lines 1 and 2
matches the opening pattern; the text is then the join by carriage return and
line feed of the non-empty stripped forms of lines `1..k-1` other than the
first line that matches the opening pattern; and the lines after position `k`
have no effect on the outcome. -/
theorem scanner_success_condition (fp : Str) (lines : List Str)
    (hlb : ∀ l ∈ lines, lineBreakFree l) :
    (∀ text, getFunctionHeaderComments fp lines = .resolved text ↔
      ∃ pre closeLine post, lines = pre ++ closeLine :: post ∧
        (∀ l ∈ pre, closesComment l = false) ∧ closesComment closeLine = true ∧
        (pre.length + 1 ≤ 2 ∨ (lines.take 2).any opensComment = true) ∧
        text = textBeforeClose pre) ∧
    (∀ pre closeLine post post', lines = pre ++ closeLine :: post →
      (∀ l ∈ pre, closesComment l = false) → closesComment closeLine = true →
      getFunctionHeaderComments fp (pre ++ closeLine :: post')
        = getFunctionHeaderComments fp lines) := by
  refine ⟨?_, ?_⟩
  · intro text
    constructor
    · intro h
      obtain ⟨pre, c, post, hl, hpre, hc, hcond, htext⟩ := resolved_text_form fp lines text h
      have hpl : ∀ l ∈ pre, lineBreakFree l := fun l hl' =>
        hlb l (by rw [hl]; exact List.mem_append_left _ hl')
      refine ⟨pre, c, post, hl, hpre, hc, ?_, ?_⟩
      · rw [hl]; exact (opens_on_line_1_or_2 pre c post).mpr hcond
      · rw [htext, textBeforeClose_eq pre hpl]
    · rintro ⟨pre, c, post, hl, hpre, hc, hcond, htext⟩
      have hpl : ∀ l ∈ pre, lineBreakFree l := fun l hl' =>
        hlb l (by rw [hl]; exact List.mem_append_left _ hl')
      rw [hl] at hcond
      rw [hl, scan_with_close fp pre c post hpre hc,
        if_pos ((opens_on_line_1_or_2 pre c post).mp hcond), htext,
        textBeforeClose_eq pre hpl]
  · intro pre c post post' hl hpre hc
    rw [hl, scan_with_close fp pre c post hpre hc, scan_with_close fp pre c post' hpre hc]

/-- The theorem on a file with a line before the comment and a line after it:
the scanner resolves, the closing line is line 4, the comment opens on line
2, and the text is built of lines 1 and 3. -/
theorem scanner_success_condition_witness :
    getFunctionHeaderComments "fnA.sqf".toList
        ["private _x = 1;".toList, "/*".toList, " * Author: x".toList, " */".toList,
          "params [];".toList]
      = .resolved "private _x = 1;\r\nAuthor: x".toList ∧
    (∃ pre closeLine post,
      ["private _x = 1;".toList, "/*".toList, " * Author: x".toList, " */".toList,
          "params [];".toList] = pre ++ closeLine :: post ∧
        (∀ l ∈ pre, closesComment l = false) ∧ closesComment closeLine = true ∧
        (pre.length + 1 ≤ 2 ∨
          (["private _x = 1;".toList, "/*".toList, " * Author: x".toList, " */".toList,
            "params [];".toList].take 2).any opensComment = true) ∧
        "private _x = 1;\r\nAuthor: x".toList = textBeforeClose pre) :=
  ⟨by decide,
    ((scanner_success_condition "fnA.sqf".toList
      ["private _x = 1;".toList, "/*".toList, " * Author: x".toList, " */".toList,
        "params [];".toList] (by decide)).1 "private _x = 1;\r\nAuthor: x".toList).mp
      (by decide)⟩

/-! ## The segments of the returned text -/

theorem mem_line_of_mem_pushedBy (line seg : Str) (hseg : seg ∈ pushedBy line) :
    ∀ c ∈ seg, c ∈ line := by
  unfold pushedBy at hseg
  split_ifs at hseg
  · simp at hseg
  · simp at hseg
  · rw [List.mem_singleton] at hseg
    subst hseg
    intro c hc
    unfold trim at hc
    have h1 : c ∈ (matchGroup1 line).dropWhile isWhiteSpace :=
      (List.rdropWhile_prefix isWhiteSpace ((matchGroup1 line).dropWhile isWhiteSpace)).subset hc
    have h2 : c ∈ matchGroup1 line := (List.dropWhile_sublist _).subset h1
    unfold matchGroup1 at h2
    exact (List.dropWhile_sublist _).subset ((List.takeWhile_sublist _).subset h2)

theorem getLast?_trim (m : Str) (c : Char) (h : (trim m).getLast? = some c) :
    isWhiteSpace c = false := by
  have hne : List.rdropWhile isWhiteSpace (m.dropWhile isWhiteSpace) ≠ [] := by
    intro h0
    have : trim m = [] := h0
    rw [this] at h
    simp at h
  have hlast := List.rdropWhile_last_not isWhiteSpace (m.dropWhile isWhiteSpace) hne
  have heq : (trim m).getLast? =
      some ((List.rdropWhile isWhiteSpace (m.dropWhile isWhiteSpace)).getLast hne) :=
    List.getLast?_eq_getLast _ hne
  rw [heq, Option.some.injEq] at h
  rw [← h]
  simpa using hlast

theorem getLast?_of_mem_pushedBy (line seg : Str) (hseg : seg ∈ pushedBy line) (c : Char)
    (h : seg.getLast? = some c) : isWhiteSpace c = false := by
  unfold pushedBy at hseg
  split_ifs at hseg
  · simp at hseg
  · simp at hseg
  · rw [List.mem_singleton] at hseg
    subst hseg
    exact getLast?_trim _ c h

theorem splitCRLF_append_crlf (s rest : Str) (h : ∀ c ∈ s, c ≠ '\r') :
    splitCRLF (s ++ '\r' :: '\n' :: rest) = s :: splitCRLF rest := by
  induction s with
  | nil => simp [splitCRLF]
  | cons c t ih =>
    have hc : c ≠ '\r' := h c (List.mem_cons_self _ _)
    have iht := ih (fun d hd => h d (List.mem_cons_of_mem _ hd))
    cases t with
    | nil =>
      simp only [List.nil_append] at iht
      simp only [List.cons_append, List.nil_append]
      rw [splitCRLF]
      simp [hc, iht]
    | cons d t' =>
      simp only [List.cons_append] at iht ⊢
      rw [splitCRLF]
      simp [hc, iht]

theorem splitCRLF_of_no_cr (s : Str) (h : ∀ c ∈ s, c ≠ '\r') : splitCRLF s = [s] := by
  induction s with
  | nil => rfl
  | cons c t ih =>
    have hc : c ≠ '\r' := h c (List.mem_cons_self _ _)
    have iht := ih (fun d hd => h d (List.mem_cons_of_mem _ hd))
    cases t with
    | nil => rfl
    | cons d t' =>
      rw [splitCRLF]
      simp [hc, iht]

theorem splitCRLF_joinCRLF (segs : List Str) (hne : segs ≠ [])
    (h : ∀ seg ∈ segs, ∀ c ∈ seg, c ≠ '\r') : splitCRLF (joinCRLF segs) = segs := by
  induction segs with
  | nil => exact absurd rfl hne
  | cons s t ih =>
    have hs := h s (List.mem_cons_self _ _)
    cases t with
    | nil => simpa [joinCRLF, List.intercalate] using splitCRLF_of_no_cr s hs
    | cons s' t' =>
      have iht := ih (by simp) (fun seg hseg => h seg (List.mem_cons_of_mem _ hseg))
      have hj : joinCRLF (s :: s' :: t') = s ++ '\r' :: '\n' :: joinCRLF (s' :: t') := by
        simp [joinCRLF, List.intercalate]
      rw [hj, splitCRLF_append_crlf s _ hs, iht]

theorem not_lineTerminator_of_mem_pushedBy (line seg : Str) (hseg : seg ∈ pushedBy line) :
    ∀ c ∈ seg, isLineTerminator c = false := by
  unfold pushedBy at hseg
  split_ifs at hseg
  · simp at hseg
  · simp at hseg
  · rw [List.mem_singleton] at hseg
    subst hseg
    intro c hc
    unfold trim at hc
    have h1 : c ∈ (matchGroup1 line).dropWhile isWhiteSpace :=
      (List.rdropWhile_prefix isWhiteSpace ((matchGroup1 line).dropWhile isWhiteSpace)).subset hc
    have h2 : c ∈ matchGroup1 line := (List.dropWhile_sublist _).subset h1
    unfold matchGroup1 at h2
    have h3 := List.mem_takeWhile_imp h2
    simpa using h3

/-- C6 (amended): when the scanner resolves, no line of the returned text is
the closing delimiter or begins with it: every segment of the text between
occurrences of carriage return, line feed holds no line terminator, does not
match the closing pattern, does not begin with a star and so does not begin
with the two characters that close a comment.  The delimiters can occur
elsewhere in a line of the text. -/
theorem scanner_text_lines_are_no_delimiters (fp : Str) (lines : List Str) (text : Str)
    (h : getFunctionHeaderComments fp lines = .resolved text) :
    ∀ seg ∈ splitCRLF text,
      closesComment seg = false ∧ seg.head? ≠ some '*' ∧
      ['*', '/'].isPrefixOf seg = false ∧
      ∀ c ∈ seg, isLineTerminator c = false := by
  obtain ⟨pre, cl, post, _, _, _, _, htext⟩ := resolved_text_form fp lines text h
  have hsrc : ∀ seg ∈ ((pre.eraseP opensComment).map pushedBy).flatten,
      ∃ line, seg ∈ pushedBy line := by
    intro seg hseg
    obtain ⟨ps, hps, hmem⟩ := List.mem_flatten.mp hseg
    obtain ⟨line, _, rfl⟩ := List.mem_map.mp hps
    exact ⟨line, hmem⟩
  intro seg hseg
  by_cases hsegs : ((pre.eraseP opensComment).map pushedBy).flatten = []
  · rw [htext, hsegs] at hseg
    have h0 : seg = [] := by simpa [joinCRLF, splitCRLF] using hseg
    subst h0
    exact ⟨by decide, by simp, by decide, by simp⟩
  · have hcr : ∀ s ∈ ((pre.eraseP opensComment).map pushedBy).flatten,
        ∀ c ∈ s, c ≠ '\r' := by
      intro s hs c hc hcr
      obtain ⟨line, hp⟩ := hsrc s hs
      have := not_lineTerminator_of_mem_pushedBy line s hp c hc
      rw [hcr] at this
      exact absurd this (by decide)
    rw [htext, splitCRLF_joinCRLF _ hsegs hcr] at hseg
    obtain ⟨line, hp⟩ := hsrc seg hseg
    have hclean := cleanSegment_pushedBy line seg hp
    cases seg with
    | nil => simp [cleanSegment] at hclean
    | cons d rest =>
      have hd : isStarOrSpace d = false := by simpa [cleanSegment] using hclean
      have hstar : d ≠ '*' := ne_star_of_isStarOrSpace_false d hd
      refine ⟨closesComment_of_cleanSegment _ hclean, ?_, ?_,
        not_lineTerminator_of_mem_pushedBy line _ hp⟩
      · simp only [List.head?_cons, ne_eq, Option.some.injEq]
        exact hstar
      · simp [List.isPrefixOf, Ne.symm hstar]

/-- The theorem on a comment whose body lines hold both delimiters: the text
has two lines, each with a delimiter inside, none at the start. -/
theorem scanner_text_lines_are_no_delimiters_witness :
    getFunctionHeaderComments "fnA.sqf".toList
        ["/*".toList, " * see /* this */ too".toList, " * and */ that".toList, " */".toList]
      = .resolved "see /* this */ too\r\nand */ that".toList ∧
    splitCRLF "see /* this */ too\r\nand */ that".toList
      = ["see /* this */ too".toList, "and */ that".toList] ∧
    ∀ seg ∈ splitCRLF "see /* this */ too\r\nand */ that".toList,
      closesComment seg = false ∧ seg.head? ≠ some '*' ∧
      ['*', '/'].isPrefixOf seg = false ∧
      ∀ c ∈ seg, isLineTerminator c = false :=
  ⟨by decide, by decide,
    scanner_text_lines_are_no_delimiters "fnA.sqf".toList
      ["/*".toList, " * see /* this */ too".toList, " * and */ that".toList, " */".toList]
      "see /* this */ too\r\nand */ that".toList (by decide)⟩

/-- C18: on lines without line breaks, when the scanner resolves with a text
that is not empty, every segment of the text between occurrences of carriage
return, line feed is non-empty, does not begin with a star or a white space
character, and does not end with a white space character. -/
theorem scanner_text_segment_shape (fp : Str) (lines : List Str) (text : Str)
    (hlb : ∀ l ∈ lines, lineBreakFree l)
    (h : getFunctionHeaderComments fp lines = .resolved text) (hne : text ≠ []) :
    ∀ seg ∈ splitCRLF text,
      seg ≠ [] ∧
      (∀ c, seg.head? = some c → c ≠ '*' ∧ isWhiteSpace c = false) ∧
      (∀ c, seg.getLast? = some c → isWhiteSpace c = false) := by
  obtain ⟨pre, cl, post, hl, _, _, _, htext⟩ := resolved_text_form fp lines text h
  have hsrc : ∀ seg ∈ ((pre.eraseP opensComment).map pushedBy).flatten,
      ∃ line ∈ lines, seg ∈ pushedBy line := by
    intro seg hseg
    obtain ⟨ps, hps, hmem⟩ := List.mem_flatten.mp hseg
    obtain ⟨line, hline, rfl⟩ := List.mem_map.mp hps
    refine ⟨line, ?_, hmem⟩
    rw [hl]
    exact List.mem_append_left _ ((List.eraseP_sublist pre).subset hline)
  have hsegs : ((pre.eraseP opensComment).map pushedBy).flatten ≠ [] := by
    intro h0
    rw [h0] at htext
    exact hne htext
  have hcr : ∀ seg ∈ ((pre.eraseP opensComment).map pushedBy).flatten,
      ∀ c ∈ seg, c ≠ '\r' := by
    intro seg hseg c hc hcr
    obtain ⟨line, hline, hp⟩ := hsrc seg hseg
    have := hlb line hline c (mem_line_of_mem_pushedBy line seg hp c hc)
    rw [hcr] at this
    exact absurd this (by decide)
  rw [htext, splitCRLF_joinCRLF _ hsegs hcr]
  intro seg hseg
  obtain ⟨line, _, hp⟩ := hsrc seg hseg
  have hclean := cleanSegment_pushedBy line seg hp
  refine ⟨?_, ?_, ?_⟩
  · intro h0; simp [h0, cleanSegment] at hclean
  · intro c hc
    cases seg with
    | nil => simp at hc
    | cons d rest =>
      simp only [List.head?_cons, Option.some.injEq] at hc
      subst hc
      have hd : isStarOrSpace d = false := by simpa [cleanSegment] using hclean
      exact ⟨ne_star_of_isStarOrSpace_false d hd,
        isWhiteSpace_false_of_isStarOrSpace_false d hd⟩
  · intro c hc
    exact getLast?_of_mem_pushedBy line seg hp c hc

/-- The theorem on a comment of two body lines with trailing blanks. -/
theorem scanner_text_segment_shape_witness :
    getFunctionHeaderComments "fnA.sqf".toList
        ["/*".toList, " * Line one.  ".toList, " ** Line two. ".toList, " */".toList]
      = .resolved "Line one.\r\nLine two.".toList ∧
    splitCRLF "Line one.\r\nLine two.".toList = ["Line one.".toList, "Line two.".toList] ∧
    ∀ seg ∈ splitCRLF "Line one.\r\nLine two.".toList,
      seg ≠ [] ∧
      (∀ c, seg.head? = some c → c ≠ '*' ∧ isWhiteSpace c = false) ∧
      (∀ c, seg.getLast? = some c → isWhiteSpace c = false) :=
  ⟨by decide, by decide,
    scanner_text_segment_shape "fnA.sqf".toList
      ["/*".toList, " * Line one.  ".toList, " ** Line two. ".toList, " */".toList]
      "Line one.\r\nLine two.".toList (by decide) (by decide) (by decide)⟩

/-! ## The order of the keys on ordinary folder names -/

theorem keys_of_plain_props {β : Type} (obj : JsObject β)
    (h : ∀ kv ∈ obj.props, arrayIndex kv.1 = none) :
    obj.keys = obj.props.map Prod.fst := by
  unfold JsObject.keys
  have h1 : obj.props.filterMap (fun kv => (arrayIndex kv.1).map (fun n => (n, kv.1))) = [] := by
    rw [List.filterMap_eq_nil_iff]
    intro kv hkv
    simp [h kv hkv]
  have h2 : obj.props.filter (fun kv => (arrayIndex kv.1).isNone) = obj.props := by
    rw [List.filter_eq_self]
    intro kv hkv
    simp [h kv hkv]
  simp only [h1, h2, List.insertionSort, List.map_nil, List.nil_append]

theorem read_resolved_of_plain_names (fsys : FileSystem) (localeCompare : Str → Str → Int)
    (folders : List Str) (options : Options) (data : List FolderRecord)
    (hne : folders ≠ [])
    (hall : readAllFolders fsys localeCompare folders options = .resolved data)
    (hnodup : (folders.map folderPrefix).Nodup)
    (hproto : ∀ f ∈ folders, folderPrefix f ≠ protoKey) :
    read fsys localeCompare folders options =
      .resolved (JsObject.mk
        ((sortWith (fun a b : FolderRecord => localeCompare a.pfx b.pfx) data).map
          (fun v => (v.pfx, v.functions))) none) := by
  have hpfx := pfx_of_readAllFolders fsys localeCompare folders options data hall
  have hsort : (sortWith (fun a b : FolderRecord => localeCompare a.pfx b.pfx) data).Perm data :=
    List.perm_insertionSort _ _
  have hkeys : ((sortWith (fun a b : FolderRecord => localeCompare a.pfx b.pfx) data).map
      (fun r => r.pfx)).Perm (folders.map folderPrefix) := by
    rw [← hpfx]; exact hsort.map _
  have hnd : ((sortWith (fun a b : FolderRecord => localeCompare a.pfx b.pfx) data).map
      (fun r => r.pfx)).Nodup := hkeys.nodup_iff.mpr hnodup
  have hnp : ∀ r ∈ sortWith (fun a b : FolderRecord => localeCompare a.pfx b.pfx) data,
      r.pfx ≠ protoKey := by
    intro r hr
    have hm : r.pfx ∈ folders.map folderPrefix :=
      hkeys.mem_iff.mp (List.mem_map.mpr ⟨r, hr, rfl⟩)
    obtain ⟨f, hf, hfr⟩ := List.mem_map.mp hm
    rw [← hfr]; exact hproto f hf
  have hfold := foldl_set_of_new_keys _ JsObject.empty hnp (by simpa [JsObject.empty] using hnd)
  have hempty : folders.isEmpty = false := by
    cases folders with
    | nil => exact absurd rfl hne
    | cons _ _ => rfl
  unfold read
  simp only [hempty, Bool.false_eq_true, if_false, hall, Promise.map]
  rw [hfold]
  simp [JsObject.empty]

/-- What the code does for folder names that are neither `__proto__` nor array
indices: when all folders resolve and their final path segments are pairwise
distinct, the keys of the mapping are these segments in the order the sort by
the locale comparison gives them, which is ascending when the comparison is
total and transitive on them. -/
theorem read_key_order_of_plain_names (fsys : FileSystem)
    (localeCompare : Str → Str → Int) (folders : List Str) (options : Options)
    (data : List FolderRecord)
    (hne : folders ≠ [])
    (hall : readAllFolders fsys localeCompare folders options = .resolved data)
    (hnodup : (folders.map folderPrefix).Nodup)
    (hproto : ∀ f ∈ folders, folderPrefix f ≠ protoKey)
    (hidx : ∀ f ∈ folders, arrayIndex (folderPrefix f) = none) :
    ∃ obj, read fsys localeCompare folders options = .resolved obj ∧
      obj.keys = sortWith localeCompare (folders.map folderPrefix) ∧
      ((∀ a ∈ folders.map folderPrefix, ∀ b ∈ folders.map folderPrefix,
          localeCompare a b ≤ 0 ∨ localeCompare b a ≤ 0) →
        (∀ a ∈ folders.map folderPrefix, ∀ b ∈ folders.map folderPrefix,
          ∀ c ∈ folders.map folderPrefix,
            localeCompare a b ≤ 0 → localeCompare b c ≤ 0 → localeCompare a c ≤ 0) →
        obj.keys.Sorted (fun a b => localeCompare a b ≤ 0)) := by
  have hpfx := pfx_of_readAllFolders fsys localeCompare folders options data hall
  have hmap : (sortWith (fun a b : FolderRecord => localeCompare a.pfx b.pfx) data).map
      (fun r => r.pfx) = sortWith localeCompare (folders.map folderPrefix) := by
    rw [← hpfx]
    exact List.map_insertionSort (fun a b : FolderRecord => localeCompare a.pfx b.pfx ≤ 0)
      (fun a b : Str => localeCompare a b ≤ 0) (fun r : FolderRecord => r.pfx) data
      (fun _ _ _ _ => Iff.rfl)
  have hkeys : (JsObject.mk
      ((sortWith (fun a b : FolderRecord => localeCompare a.pfx b.pfx) data).map
        (fun v => (v.pfx, v.functions))) none).keys
      = sortWith localeCompare (folders.map folderPrefix) := by
    rw [keys_of_plain_props, ← hmap]
    · simp [List.map_map, Function.comp_def]
    · intro kv hkv
      obtain ⟨r, hr, rfl⟩ := List.mem_map.mp hkv
      have hm : r.pfx ∈ folders.map folderPrefix := by
        rw [← hpfx]
        exact List.mem_map.mpr ⟨r, (List.perm_insertionSort _ _).mem_iff.mp hr, rfl⟩
      obtain ⟨f, hf, hfr⟩ := List.mem_map.mp hm
      show arrayIndex r.pfx = none
      rw [← hfr]; exact hidx f hf
  refine ⟨_, read_resolved_of_plain_names fsys localeCompare folders options data hne hall
    hnodup hproto, hkeys, ?_⟩
  intro htot htr
  rw [hkeys]
  exact sorted_insertionSort_on _ _ htot htr

/-- What the code does under a permutation of the folders found: when all
folders resolve, their final path segments are pairwise distinct and the
locale comparison is a total order on them, every permutation of the list of
folders yields the same mapping. -/
theorem read_eq_of_perm (fsys : FileSystem) (localeCompare : Str → Str → Int)
    (folders folders' : List Str) (options : Options) (data : List FolderRecord)
    (hperm : folders'.Perm folders)
    (hall : readAllFolders fsys localeCompare folders options = .resolved data)
    (hnodup : (folders.map folderPrefix).Nodup)
    (htot : ∀ a ∈ folders.map folderPrefix, ∀ b ∈ folders.map folderPrefix,
      localeCompare a b ≤ 0 ∨ localeCompare b a ≤ 0)
    (htr : ∀ a ∈ folders.map folderPrefix, ∀ b ∈ folders.map folderPrefix,
      ∀ c ∈ folders.map folderPrefix,
        localeCompare a b ≤ 0 → localeCompare b c ≤ 0 → localeCompare a c ≤ 0)
    (hanti : ∀ a ∈ folders.map folderPrefix, ∀ b ∈ folders.map folderPrefix,
      localeCompare a b ≤ 0 → localeCompare b a ≤ 0 → a = b) :
    read fsys localeCompare folders' options = read fsys localeCompare folders options := by
  let g : Str → FolderRecord := fun f =>
    match parseComponent fsys localeCompare options f with
    | .resolved r => r
    | _ => { pfx := [], functions := [] }
  have hf2 := forall₂_of_allValues _ _ _ (allValues_of_all_resolved _ _ hall)
  have hg : ∀ f ∈ folders, parseComponent fsys localeCompare options f = .resolved (g f) := by
    clear hall hperm hnodup htot htr hanti
    induction hf2 with
    | nil => intro f hf; simp at hf
    | cons hav _ ih =>
      intro f hf
      rcases List.mem_cons.mp hf with rfl | hf
      · simp only [g, hav]
      · exact ih f hf
  have hgp : ∀ f ∈ folders, (g f).pfx = folderPrefix f := fun f hf =>
    pfx_of_parseComponent _ _ _ _ _ (hg f hf)
  have h1 : readAllFolders fsys localeCompare folders options = .resolved (folders.map g) :=
    all_map_resolved _ g folders hg
  have h2 : readAllFolders fsys localeCompare folders' options = .resolved (folders'.map g) :=
    all_map_resolved _ g folders' (fun f hf => hg f (hperm.mem_iff.mp hf))
  have hmem : ∀ r ∈ folders.map g, r.pfx ∈ folders.map folderPrefix := by
    intro r hr
    obtain ⟨f, hf, rfl⟩ := List.mem_map.mp hr
    exact List.mem_map.mpr ⟨f, hf, (hgp f hf).symm⟩
  have hsorted : sortWith (fun a b : FolderRecord => localeCompare a.pfx b.pfx) (folders'.map g)
      = sortWith (fun a b : FolderRecord => localeCompare a.pfx b.pfx) (folders.map g) := by
    apply sortWith_eq_of_perm _ _ _ (hperm.map g)
    · exact fun a ha b hb => htot _ (hmem a ha) _ (hmem b hb)
    · exact fun a ha b hb c hc => htr _ (hmem a ha) _ (hmem b hb) _ (hmem c hc)
    · intro a ha b hb hab hba
      have hp := hanti _ (hmem a ha) _ (hmem b hb) hab hba
      obtain ⟨f, hf, rfl⟩ := List.mem_map.mp ha
      obtain ⟨f', hf', rfl⟩ := List.mem_map.mp hb
      rw [hgp f hf, hgp f' hf'] at hp
      rw [List.inj_on_of_nodup_map hnodup hf hf' hp]
  have hempty : folders'.isEmpty = folders.isEmpty := by
    cases folders with
    | nil => rw [hperm.eq_nil]
    | cons a t =>
      cases folders' with
      | nil => exact absurd hperm.symm.eq_nil (by simp)
      | cons _ _ => rfl
  unfold read
  rw [hempty, h1, h2]
  simp only [Promise.map, hsorted]

end Ace3Reader
